import Mathlib

/-!
Verification of the category-graph construction and rendering pipeline of
`build.py` (static wiki-archive builder).  The Python source is shallowly
embedded: each parsed HTML document is modelled as a `Doc` record carrying
the results of the queries the builder performs on it (the HTML parsing
substrate is an external collaborator per the design); dictionaries become
insertion-ordered association lists, Python sets become lists with
membership-checked insertion, and every pass of the builder becomes an
explicit fold.  All definitions are executable, so concrete runs can be
evaluated inside proofs.
-/

namespace RequiemWiki

/-! ## Generic list and string helpers (modelling Python primitives) -/

/-- Membership test on a list of strings, modelling Python `in` on
sets/dicts of strings. -/
def memB (x : String) : List String → Bool
  | [] => false
  | y :: ys => if y = x then true else memB x ys

/-- Python `set.add`: append the element only when it is not yet present.
Insertion order of a CPython string set is not observable in the builder
(it always sorts before use), so a deduplicated list is a faithful model. -/
def setInsert (s : List String) (x : String) : List String :=
  if memB x s then s else s ++ [x]

/-- First-match association-list lookup, modelling Python `dict[k]` /
`dict.get(k)` (keys are unique in all states the builder constructs). -/
def listGet? {α : Type} : List (String × α) → String → Option α
  | [], _ => none
  | p :: ps, k => if p.1 = k then some p.2 else listGet? ps k

/-- Key-presence test, modelling Python `k in dict`. -/
def hasKeyL {α : Type} (m : List (String × α)) (k : String) : Bool :=
  (listGet? m k).isSome

/-- Python `d.setdefault(k, []).append(v)` on a `dict[str, list]`. -/
def dictAppend {α : Type} : List (String × List α) → String → α → List (String × List α)
  | [], k, v => [(k, [v])]
  | p :: ps, k, v => if p.1 = k then (p.1, p.2 ++ [v]) :: ps else p :: dictAppend ps k v

/-- Python `d.setdefault(k, set()).add(v)` on a `dict[str, set[str]]`. -/
def dictSetInsert : List (String × List String) → String → String → List (String × List String)
  | [], k, v => [(k, [v])]
  | p :: ps, k, v => if p.1 = k then (p.1, setInsert p.2 v) :: ps else p :: dictSetInsert ps k v

/-- Does `pre` lead (start) the character list `s`?  Used to model Python
`str.startswith` and the CSS attribute selector `[title^=...]`. -/
def leadsWith : List Char → List Char → Bool
  | [], _ => true
  | _ :: _, [] => false
  | a :: as, b :: bs => if a = b then leadsWith as bs else false

/-- Python `s.startswith(pre)`. -/
def strStarts (s pre : String) : Bool := leadsWith pre.toList s.toList

/-- Python `s.endswith(suf)`. -/
def strEnds (s suf : String) : Bool := leadsWith suf.toList.reverse s.toList.reverse

/-- Python `s[n:]` (drop the first `n` characters). -/
def strDrop (s : String) (n : Nat) : String := String.mk (s.toList.drop n)

/-- Python `s.strip()` (whitespace on both ends). -/
def trimStr (s : String) : String :=
  String.mk (((s.toList.dropWhile Char.isWhitespace).reverse.dropWhile Char.isWhitespace).reverse)

/-- Python `s.lower()` (ASCII case folding, which is all the builder's
inputs exercise). -/
def lowerStr (s : String) : String := String.mk (s.toList.map Char.toLower)

/-- Does the character occur in the list?  Models Python `c in s`. -/
def hasChar : List Char → Char → Bool
  | [], _ => false
  | d :: ds, c => if d = c then true else hasChar ds c

/-- Python `s.replace(a, b)` for single characters. -/
def replaceChar (s : String) (a b : Char) : String :=
  String.mk (s.toList.map (fun c => if c = a then b else c))

/-- Lexicographic comparison of character lists by code point, modelling
Python string `<=`. -/
def listCharLe : List Char → List Char → Bool
  | [], _ => true
  | _ :: _, [] => false
  | a :: as, b :: bs =>
    if a.toNat = b.toNat then listCharLe as bs else decide (a.toNat < b.toNat)

/-- Python `s1 <= s2` on strings (code-point lexicographic). -/
def strLeB (a b : String) : Bool := listCharLe a.toList b.toList

/-- Case-insensitive string order used by every `sorted(key=str.lower)`
in the builder. -/
def lowerLeB (a b : String) : Bool := strLeB (lowerStr a) (lowerStr b)

/-- Ordered insertion for the stable sort below. -/
def insLower (x : String) : List String → List String
  | [] => [x]
  | y :: ys => if lowerLeB x y then x :: y :: ys else y :: insLower x ys

/-- Python `sorted(xs, key=str.lower)` (insertion sort; stable, ordered by
the case-folded key). -/
def sortByLower : List String → List String
  | [] => []
  | x :: xs => insLower x (sortByLower xs)

/-- Chain-sortedness check for the case-insensitive order. -/
def sortedLowerB : List String → Bool
  | [] => true
  | [_] => true
  | a :: b :: r => lowerLeB a b && sortedLowerB (b :: r)

/-! ## Source documents

A `Doc` is one salvaged HTML file, abstracted to the answers of the
queries `build.py` runs on it; the HTML parsing library is the external
collaborator of the design, so those answers are the interface.  `path`
is the file's path relative to its source root, one component per
directory level (`rglob` finds nested files; the breadcrumb phase later
probes only root-level paths). -/

structure Article where
  title : String
  html : String
  text : String
deriving DecidableEq, Repr

structure Doc where
  /-- Path components relative to the containing source root. -/
  path : List String
  /-- Result of `is_error_page(soup)`. -/
  isError : Bool
  /-- Result of `extract_article(soup)` (`none` when content or heading is missing). -/
  article : Option Article
  /-- The `title` attributes returned by `soup.select("#catlinks a[title^='Category:']")`
  after extraction; the pass re-filters on the `Category:` leader. -/
  catlinkTitles : List String
  /-- Result of `is_category_page(soup)`. -/
  isCatPage : Bool
  /-- Text of `h1.firstHeading`, when present. -/
  heading : Option String
  /-- The `title` attributes of anchors in `#mw-subcategories` (selector
  `a[title^="Category:"]`; re-filtered on the leader below). -/
  subcatTitles : List String
  /-- The `title` attributes of anchors in `#mw-pages` (selector `a[title]`). -/
  pageTitles : List String
deriving DecidableEq, Repr

/-- Last path component: the filename seen by the `rglob` patterns. -/
def lastName (d : Doc) : String := (d.path.getLast?).getD ""

/-! ## Title normalizer (`normalize_category_name`, `to_safe_name`, …) -/

/-- Python `normalize_category_name`: strip a leading `Category:` (9
characters) via `split(":", 1)[1]` and trim, else trim. -/
def normalize_category_name (name : String) : String :=
  if strStarts name "Category:" then trimStr (strDrop name 9) else trimStr name

/-- Characters kept by the `[^A-Za-z0-9_\-]+` substitution. -/
def isSafeChar (c : Char) : Bool :=
  decide ((65 ≤ c.toNat ∧ c.toNat ≤ 90) ∨ (97 ≤ c.toNat ∧ c.toNat ≤ 122) ∨
          (48 ≤ c.toNat ∧ c.toNat ≤ 57) ∨ c = '_' ∨ c = '-')

/-- Replace each maximal run of unsafe characters with a single `'_'`
(the flag records whether the previous character was part of such a run),
exactly as `re.sub(r"[^A-Za-z0-9_\-]+", "_", ...)` does. -/
def subBadRunsAux : Bool → List Char → List Char
  | _, [] => []
  | prevBad, c :: cs =>
    if isSafeChar c then c :: subBadRunsAux false cs
    else if prevBad then subBadRunsAux true cs
    else '_' :: subBadRunsAux true cs

/-- Python `s.strip("_")`. -/
def stripUnderscores (l : List Char) : List Char :=
  ((l.dropWhile (fun c => c = '_')).reverse.dropWhile (fun c => c = '_')).reverse

/-- Python `to_safe_name`: substitute unsafe runs, strip underscores,
fall back to `"page"` when empty. -/
def to_safe_name (title : String) : String :=
  let s := String.mk (stripUnderscores (subBadRunsAux false title.toList))
  if s = "" then "page" else s

/-- Python `category_output_filename`. -/
def category_output_filename (categoryName : String) : String :=
  to_safe_name ("Category_" ++ categoryName) ++ ".html"

/-- Bucket directory for an article page: uppercased first character of
the safe name if in `A`–`Z`, else `0-9` (lines 163-165 of `build.py`). -/
def pageBucket (safe : String) : String :=
  let fc := match safe.toList with
    | [] => "#"
    | c :: _ => String.mk [c.toUpper]
  if strLeB "A" fc && strLeB fc "Z" then fc else "0-9"

/-- Relative output URL of an article title
(`pages/{BUCKET}/{safe_name}.html`). -/
def urlOfTitle (t : String) : String :=
  let safe := to_safe_name t
  "pages/" ++ pageBucket safe ++ "/" ++ safe ++ ".html"

/-- A–Z listing bucket: uppercased first character of the title if
alphabetic, else `#` (lines 185-187; ASCII model of `str.isalpha`). -/
def azKey (t : String) : String :=
  match t.toList with
  | [] => "#"
  | c :: _ => let u := c.toUpper; if u.isAlpha then String.mk [u] else "#"

/-! ## Article discovery (lines 142-194): extraction, dedup, indexes, pass 1 -/

/-- One A–Z / category listing entry (`{"title": ..., "url": ...}`). -/
structure Entry where
  title : String
  url : String
deriving DecidableEq, Repr

/-- One search-index entry (`{"title": ..., "url": ..., "content": ...}`). -/
structure SearchEntry where
  title : String
  url : String
  content : String
deriving DecidableEq, Repr

/-- The accumulating state of the discovery loop. -/
structure DiscoveryState where
  searchIndex : List SearchEntry
  aToZ : List (String × List Entry)
  categories : List (String × List Entry)
  seenTitles : List String
  titleToFilename : List (String × String)
  titleToCategories : List (String × List String)
deriving DecidableEq, Repr

def initDiscovery : DiscoveryState := ⟨[], [], [], [], [], []⟩

/-- The title under which a document would be accepted: `none` when it is
an error page, fails extraction, or extracts an empty title (the
`continue`s at lines 151-157). -/
def docTitle? (d : Doc) : Option String :=
  if d.isError then none
  else match d.article with
    | none => none
    | some a => if a.title = "" then none else some a.title

/-- State updates for an accepted article (lines 160-194): record the
title as seen, emit the output page URL, append the search-index and A–Z
entries, and run pass 1 (inline catlinks) for this document. -/
def acceptDoc (st : DiscoveryState) (d : Doc) (a : Article) : DiscoveryState :=
  let title := a.title
  let url := urlOfTitle title
  let ci := (d.catlinkTitles.filter (fun t => strStarts t "Category:")).foldl
    (fun (p : List (String × List Entry) × List (String × List String)) t =>
      let cat := normalize_category_name t
      (dictAppend p.1 cat ⟨title, url⟩, dictSetInsert p.2 title cat))
    (st.categories, st.titleToCategories)
  { searchIndex := st.searchIndex ++ [⟨title, url, a.text⟩]
    aToZ := dictAppend st.aToZ (azKey title) ⟨title, url⟩
    categories := ci.1
    seenTitles := st.seenTitles ++ [title]
    titleToFilename := st.titleToFilename ++ [(title, url)]
    titleToCategories := ci.2 }

/-- Process one candidate document of the discovery loop. -/
def processDoc (st : DiscoveryState) (d : Doc) : DiscoveryState :=
  if d.isError then st
  else match d.article with
    | none => st
    | some a =>
      if a.title = "" then st
      else if memB a.title st.seenTitles then st
      else acceptDoc st d a

/-- The whole discovery pass over the documents of all source roots,
flattened in source-root priority order then traversal order. -/
def discoveryRun (docs : List Doc) : DiscoveryState :=
  docs.foldl processDoc initDiscovery

/-! ## Pass 2 (lines 196-234): dedicated category pages -/

/-- A category node: `{"subcats": set[str], "pages": set[str]}`. -/
structure Node where
  subcats : List String
  pages : List String
deriving DecidableEq, Repr

def emptyNode : Node := ⟨[], []⟩

/-- The category graph: `dict[str, Node]` in insertion order. -/
abbrev Graph := List (String × Node)

/-- Python `category_graph.setdefault(k, {"subcats": set(), "pages": set()})`. -/
def graphSetdefault : Graph → String → Graph
  | [], k => [(k, emptyNode)]
  | p :: ps, k => if p.1 = k then p :: ps else p :: graphSetdefault ps k

/-- Update the (unique) node stored under `k`, if present. -/
def graphUpdate : Graph → String → (Node → Node) → Graph
  | [], _, _ => []
  | p :: ps, k, f => if p.1 = k then (p.1, f p.2) :: ps else p :: graphUpdate ps k f

/-- One anchor of the `#mw-subcategories` loop (lines 221-226): normalize
the name; when non-empty, add it to the node's subcategory set and ensure
a node exists for it. -/
def pass2AddSubcat (g : Graph) (cat : String) (t : String) : Graph :=
  let subName := normalize_category_name t
  if subName ≠ "" then
    graphSetdefault
      (graphUpdate g cat (fun n => { n with subcats := setInsert n.subcats subName }))
      subName
  else g

/-- One anchor of the `#mw-pages` loop (lines 229-234): when the title
attribute is non-empty, add it to the node's member-pages set. -/
def pass2AddPage (g : Graph) (cat : String) (t : String) : Graph :=
  if t ≠ "" then graphUpdate g cat (fun n => { n with pages := setInsert n.pages t }) else g

/-- The body of the pass-2 loop for a classified category page with
heading text `raw` (lines 215-234): ensure the node, add each subcategory
anchor, then add each member-page anchor. -/
def processCatBody (g : Graph) (d : Doc) (raw : String) : Graph :=
  d.pageTitles.foldl
    (fun g t => pass2AddPage g (normalize_category_name raw) t)
    ((d.subcatTitles.filter (fun t => strStarts t "Category:")).foldl
      (fun g t => pass2AddSubcat g (normalize_category_name raw) t)
      (graphSetdefault g (normalize_category_name raw)))

/-- Process one `Category_*.html` document (lines 203-234). -/
def processCatDoc (g : Graph) (d : Doc) : Graph :=
  if d.isError || !d.isCatPage then g
  else match d.heading with
    | none => g
    | some raw => processCatBody g d raw

/-- Does the filename match the `rglob("Category_*.html")` pattern? -/
def isCategoryFilename (name : String) : Bool :=
  strStarts name "Category_" && strEnds name ".html"

/-- The whole pass-2 fold over the matching documents. -/
def pass2Run (g : Graph) (cdocs : List Doc) : Graph :=
  cdocs.foldl processCatDoc g

/-! ## Merging page-derived categories into the graph (lines 236-240, 295-299) -/

/-- For every `(cat, items)` of the categories accumulator: ensure a node,
then add each item's title to the node's member-pages set. -/
def mergeCategories (g : Graph) (cats : List (String × List Entry)) : Graph :=
  cats.foldl
    (fun g p =>
      p.2.foldl
        (fun g it => graphUpdate g p.1 (fun n => { n with pages := setInsert n.pages it.title }))
        (graphSetdefault g p.1))
    g

/-! ## Pass 3 (lines 272-293): curated taxonomy

Each Python rule is `\b(alt1|alt2|...)\b` (rule 1 with a trailing `s?`,
which distributes into the alternatives; inner `s?` likewise).  A match
is: some alternative occurs case-insensitively at some position with a
word boundary on each side.  `\w` is `[A-Za-z0-9_]` for this ASCII data. -/

def isWordChar (c : Char) : Bool :=
  decide ((65 ≤ c.toNat ∧ c.toNat ≤ 90) ∨ (97 ≤ c.toNat ∧ c.toNat ≤ 122) ∨
          (48 ≤ c.toNat ∧ c.toNat ≤ 57) ∨ c = '_')

/-- Word-ness of the character adjacent to a match position (`none` at
either end of the string counts as non-word). -/
def wordish : Option Char → Bool
  | none => false
  | some c => isWordChar c

/-- When `alt` occurs case-insensitively at the head of `s`, return the
character following the occurrence. -/
def ciHeadRest : List Char → List Char → Option (Option Char)
  | [], s => some s.head?
  | _ :: _, [] => none
  | a :: as, b :: bs => if a.toLower = b.toLower then ciHeadRest as bs else none

/-- Does `alt` match at the head of `s`, with `before` the character just
before this position, honouring both `\b` boundaries?  (Case folding
preserves word-ness, so boundary tests on the pattern characters agree
with the matched text.) -/
def altMatchesAt (alt : List Char) (before : Option Char) (s : List Char) : Bool :=
  match alt.head?, alt.getLast? with
  | some a0, some aN =>
    (isWordChar a0 != wordish before) &&
    (match ciHeadRest alt s with
     | none => false
     | some nxt => isWordChar aN != wordish nxt)
  | _, _ => false

/-- Scan every position of `s` for a boundary-delimited, case-insensitive
occurrence of one of the alternatives: `re.search` for such patterns. -/
def searchAlts (alts : List (List Char)) (before : Option Char) (s : List Char) : Bool :=
  alts.any (fun alt => altMatchesAt alt before s) ||
    match s with
    | [] => false
    | c :: rest => searchAlts alts (some c) rest

/-- `pat.search(title)` for a curated rule with the given alternatives. -/
def patMatch (alts : List String) (title : String) : Bool :=
  searchAlts (alts.map String.toList) none title.toList

/-- The curated taxonomy (lines 273-286), with `s?` distributed into the
alternative lists. -/
def curated_taxonomy : List (List String × String) :=
  [ (["Armor", "Armors", "Armorss", "Cloth", "Cloths", "Leather", "Leathers",
      "Plate", "Plates", "Shield", "Shields", "Shieldss", "Jewelry", "Jewelrys",
      "Equipment Set", "Equipment Sets"], "Equipment"),
    (["Claws", "Crossbows", "Dual Swords", "Knuckles", "Launcher", "Staves",
      "Two Handed", "One Handed", "Wands"], "Weapons"),
    (["Quest", "Quest:", "Quests"], "Quests"),
    (["Monster", "Monsters", "MOB", "Drop", "Mob item drops"], "Monsters"),
    (["Skill", "Skills", "DNA"], "Skills"),
    (["Stat", "Stats", "EXP", "EXP Chart", "Level", "Levels", "Leveling",
      "Leveling Spots"], "Character"),
    (["World", "Map", "World Map", "Place", "Places", "Dungeon", "Dungeons"], "World"),
    (["Client", "Patch", "Patches", "Download", "Downloads"], "Downloads"),
    (["Xeons", "Waters", "Consumable", "Consumables", "Potion", "Potions",
      "Elixir", "Elixirs"], "Consumables"),
    (["Build", "Builds", "Guide", "Guides"], "Guides"),
    (["Class", "Rogue", "Warrior", "Shaman", "Mystic", "Templar", "Radiant",
      "Assassin", "Avenger", "Berserker", "Commander", "Defender", "Defiler",
      "Dominator", "Druid", "Elementalist", "Forsaker", "Protector",
      "Shadow Runner", "Soul Hunter"], "Classes") ]

/-- State threaded through pass 3: the categories accumulator and the
article-title-to-categories index. -/
abbrev P3State := List (String × List Entry) × List (String × List String)

/-- One rule evaluation of the curated loop body (lines 290-293): when
the pattern matches the title, append the title to the target category's
list and add the target to the title's category-index set. -/
def p3RuleStep (tu : String × String) (st : P3State) (r : List String × String) : P3State :=
  if patMatch r.1 tu.1 then
    (dictAppend st.1 r.2 ⟨tu.1, tu.2⟩, dictSetInsert st.2 tu.1 r.2)
  else st

/-- Apply the curated rules to every known article title (lines 288-293). -/
def pass3With (rules : List (List String × String)) (tf : List (String × String))
    (st : P3State) : P3State :=
  tf.foldl (fun st tu => rules.foldl (p3RuleStep tu) st) st

def pass3 (tf : List (String × String)) (st : P3State) : P3State :=
  pass3With curated_taxonomy tf st

/-- The curated root categories force-inserted at lines 340-346. -/
def curated_roots_order : List String :=
  ["Equipment", "Armors", "Jewelry", "Shields", "Weapons",
   "Classes", "Skills", "Quests", "Monsters", "Character",
   "World", "Downloads", "Consumables", "Guides"]

/-! ## Link resolver (lines 265-270) -/

/-- The opposite underscore/space variant of a title: swap underscores to
spaces when an underscore is present, else spaces to underscores. -/
def altVariant (t : String) : String :=
  if hasChar t.toList '_' then replaceChar t '_' ' ' else replaceChar t ' ' '_'

/-- Python `resolve_page_url`: verbatim lookup, then the variant. -/
def resolve_page_url (m : List (String × String)) (title : String) : Option String :=
  match listGet? m title with
  | some u => some u
  | none => listGet? m (altVariant title)

/-! ## Category page rendering (lines 301-321) -/

/-- The member-page links emitted by the `Pages` loop (lines 314-318), in
sorted order: unresolvable titles produce no entry. -/
def renderedPages (m : List (String × String)) (pages : List String) : List (String × String) :=
  (sortByLower pages).foldl
    (fun acc p =>
      match resolve_page_url m p with
      | some url => acc ++ [(p, url)]
      | none => acc)
    []

/-- One rendered member-page list item. -/
def liPage (linkPfx : String) (pu : String × String) : String :=
  "<li><a href=\"" ++ linkPfx ++ pu.2 ++ "\">" ++ pu.1 ++ "</a></li>"

/-- One rendered subcategory list item. -/
def liSub (sub : String) : String :=
  "<li><a href=\"" ++ category_output_filename sub ++ "\">" ++ sub ++ "</a></li>"

/-- Python `render_category_body`. -/
def render_category_body (m : List (String × String)) (catName : String)
    (node : Node) (linkPfx : String) : String :=
  let subs :=
    if node.subcats ≠ [] then
      "<h3>Subcategories</h3><ul>" ++ String.join ((sortByLower node.subcats).map liSub) ++ "</ul>"
    else ""
  let pgs :=
    if node.pages ≠ [] then
      "<h3>Pages</h3><ul>" ++ String.join ((renderedPages m node.pages).map (liPage linkPfx)) ++ "</ul>"
    else ""
  "<div class=\"category\"><h2>Category: " ++ catName ++ "</h2>" ++ subs ++ pgs ++ "</div>"

/-! ## Breadcrumb phase (lines 387-414) -/

/-- One breadcrumb link (line 394). -/
def crumbLink (c : String) : String :=
  "<a href=\"categories/" ++ category_output_filename c ++ "\">" ++ c ++ "</a>"

/-- The breadcrumb strip for the given (already sorted and capped)
categories (lines 391-396). -/
def crumbsHtml (cats : List String) : String :=
  "<div class=\"breadcrumbs\">Categories:" ++
    String.intercalate " <span class=\"sep\">|</span> " (cats.map crumbLink) ++
    "</div>"

/-- The source-document probe of lines 401-406: for each source root in
priority order, test whether a file named exactly `title + ".html"`
exists directly under the root, and read the first hit. -/
def findSourceDoc : List (List Doc) → String → Option Doc
  | [], _ => none
  | r :: rs, t =>
    match r.find? (fun d => d.path = [t ++ ".html"]) with
    | some d => some d
    | none => findSourceDoc rs t

/-- A page write performed by the breadcrumb phase. -/
structure RenderAction where
  path : String
  title : String
  body : String
  breadcrumbs : String
deriving DecidableEq, Repr

/-- What the breadcrumb loop body (lines 388-414) does for one
`(title, filename)` item of the article map: nothing when the sorted
category set is empty, when no source file named `title + ".html"` sits
directly under a source root, or when re-extraction fails; otherwise it
rewrites the page from the re-extracted body with a strip of the first 5
sorted categories. -/
def breadcrumbAction (roots : List (List Doc)) (idx : List (String × List String))
    (tu : String × String) : Option RenderAction :=
  let cats := sortByLower ((listGet? idx tu.1).getD [])
  if cats = [] then none
  else
    match findSourceDoc roots tu.1 with
    | none => none
    | some d =>
      match d.article with
      | none => none
      | some a => some ⟨tu.2, tu.1, a.html, crumbsHtml (cats.take 5)⟩

/-! ## The whole build (the `build()` function, filesystem effects elided) -/

/-- Per-value sort of the listing dictionaries (lines 243-246). -/
def sortEntriesIns (x : Entry) : List Entry → List Entry
  | [] => [x]
  | y :: ys => if lowerLeB x.title y.title then x :: y :: ys else y :: sortEntriesIns x ys

def sortEntries : List Entry → List Entry
  | [] => []
  | x :: xs => sortEntriesIns x (sortEntries xs)

def sortDictValues (m : List (String × List Entry)) : List (String × List Entry) :=
  m.map (fun p => (p.1, sortEntries p.2))

/-- The results of one run of `build()` that the claims talk about. -/
structure BuildResult where
  /-- Discovery-phase state (article set, indexes, pass-1 categories). -/
  disc : DiscoveryState
  /-- Graph after pass 2 and the first merge (line 240). -/
  graphMerged : Graph
  /-- Categories accumulator after pass 3 (line 293). -/
  categoriesFinal : List (String × List Entry)
  /-- Article-title-to-categories index after pass 3. -/
  indexFinal : List (String × List String)
  /-- Graph after the second merge and curated-root insertion (line 346). -/
  graphFinal : Graph
  /-- Breadcrumb-phase write action per article map item, in order. -/
  breadcrumbs : List (Option RenderAction)
deriving Repr

/-- All documents of the source roots, flattened in source-root priority
order then traversal order. -/
def pipeDocs (roots : List (List Doc)) : List Doc := roots.flatten

/-- The documents pass 2 re-scans (`rglob("Category_*.html")`). -/
def pipeCatDocs (roots : List (List Doc)) : List Doc :=
  (pipeDocs roots).filter (fun d => isCategoryFilename (lastName d))

/-- Graph after pass 2 and the first merge (lines 196-240). -/
def pipeGraphMerged (roots : List (List Doc)) : Graph :=
  mergeCategories (pass2Run [] (pipeCatDocs roots)) (discoveryRun (pipeDocs roots)).categories

/-- Categories accumulator and article index after pass 3 (lines
243-246 sort the accumulator values first; lines 288-293 apply the
rules). -/
def pipeP3 (roots : List (List Doc)) : P3State :=
  pass3 (discoveryRun (pipeDocs roots)).titleToFilename
    (sortDictValues (discoveryRun (pipeDocs roots)).categories,
     (discoveryRun (pipeDocs roots)).titleToCategories)

/-- Graph after the second merge (line 299) and curated-root insertion
(lines 340-346). -/
def pipeGraphFinal (roots : List (List Doc)) : Graph :=
  curated_roots_order.foldl graphSetdefault
    (mergeCategories (pipeGraphMerged roots) (pipeP3 roots).1)

/-- The build pipeline over the documents of the source roots (in
priority order; each root's list is its traversal order). -/
def buildPipeline (roots : List (List Doc)) : BuildResult :=
  { disc := discoveryRun (pipeDocs roots)
    graphMerged := pipeGraphMerged roots
    categoriesFinal := (pipeP3 roots).1
    indexFinal := (pipeP3 roots).2
    graphFinal := pipeGraphFinal roots
    breadcrumbs := (discoveryRun (pipeDocs roots)).titleToFilename.map
      (fun tu => breadcrumbAction roots (pipeP3 roots).2 tu) }

theorem buildPipeline_graphFinal (roots : List (List Doc)) :
    (buildPipeline roots).graphFinal = pipeGraphFinal roots := by
  rw [buildPipeline]

theorem buildPipeline_indexFinal (roots : List (List Doc)) :
    (buildPipeline roots).indexFinal = (pipeP3 roots).2 := by
  rw [buildPipeline]

/-! ## Basic lemmas about the helpers -/

theorem memB_iff (x : String) (l : List String) : memB x l = true ↔ x ∈ l := by
  induction l with
  | nil => simp [memB]
  | cons y ys ih =>
    by_cases h : y = x
    · simp [memB, h]
    · simp [memB, h, ih, Ne.symm h]

theorem mem_of_listGet? {α : Type} {m : List (String × α)} {k : String} {v : α}
    (h : listGet? m k = some v) : (k, v) ∈ m := by
  induction m with
  | nil => simp [listGet?] at h
  | cons p ps ih =>
    obtain ⟨k1, v1⟩ := p
    by_cases hk : k1 = k
    · subst hk
      have h' : v1 = v := by simpa [listGet?] using h
      subst h'
      exact List.mem_cons_self _ _
    · rw [listGet?, if_neg hk] at h
      exact List.mem_cons_of_mem _ (ih h)

theorem mem_insLower (x a : String) (l : List String) :
    a ∈ insLower x l ↔ a = x ∨ a ∈ l := by
  induction l with
  | nil => simp [insLower]
  | cons y ys ih =>
    by_cases h : lowerLeB x y = true
    · simp [insLower, h, List.mem_cons]
    · simp only [insLower, if_neg h, List.mem_cons, ih]
      tauto

theorem mem_sortByLower (a : String) (l : List String) :
    a ∈ sortByLower l ↔ a ∈ l := by
  induction l with
  | nil => simp [sortByLower]
  | cons x xs ih => simp [sortByLower, mem_insLower, ih]

theorem length_insLower (x : String) (l : List String) :
    (insLower x l).length = l.length + 1 := by
  induction l with
  | nil => rfl
  | cons y ys ih =>
    by_cases h : lowerLeB x y = true
    · simp [insLower, h]
    · simp [insLower, h, ih]

theorem length_sortByLower (l : List String) :
    (sortByLower l).length = l.length := by
  induction l with
  | nil => rfl
  | cons x xs ih => simp [sortByLower, length_insLower, ih]

theorem sortByLower_ne_nil {l : List String} (h : l ≠ []) : sortByLower l ≠ [] := by
  intro hc
  apply h
  have := length_sortByLower l
  rw [hc] at this
  exact List.length_eq_zero.mp this.symm

theorem listCharLe_total (l1 l2 : List Char) :
    listCharLe l1 l2 = true ∨ listCharLe l2 l1 = true := by
  induction l1 generalizing l2 with
  | nil => left; rfl
  | cons a as ih =>
    cases l2 with
    | nil => right; rfl
    | cons b bs =>
      by_cases h : a.toNat = b.toNat
      · have h' : b.toNat = a.toNat := h.symm
        simp only [listCharLe, if_pos h, if_pos h']
        exact ih bs
      · have h' : b.toNat ≠ a.toNat := fun hc => h hc.symm
        rcases Nat.lt_or_gt_of_ne h with hlt | hgt
        · left
          simp [listCharLe, if_neg h, hlt]
        · right
          simp [listCharLe, if_neg h', hgt]

theorem lowerLeB_total (a b : String) : lowerLeB a b = true ∨ lowerLeB b a = true :=
  listCharLe_total (lowerStr a).toList (lowerStr b).toList

theorem sortedLowerB_insLower (x : String) (l : List String)
    (h : sortedLowerB l = true) : sortedLowerB (insLower x l) = true := by
  induction l with
  | nil => rfl
  | cons y ys ih =>
    by_cases hxy : lowerLeB x y = true
    · simpa [insLower, hxy, sortedLowerB] using h
    · have hyx : lowerLeB y x = true := by
        rcases lowerLeB_total x y with h1 | h1
        · exact absurd h1 hxy
        · exact h1
      cases ys with
      | nil => simp [insLower, hxy, sortedLowerB, hyx]
      | cons z zs =>
        have h1 : lowerLeB y z = true ∧ sortedLowerB (z :: zs) = true := by
          simpa [sortedLowerB, Bool.and_eq_true] using h
        by_cases hxz : lowerLeB x z = true
        · simp [insLower, hxy, hxz, sortedLowerB, hyx, h1.2]
        · have h2 : sortedLowerB (insLower x (z :: zs)) = true := ih h1.2
          rw [insLower, if_neg hxz] at h2
          simp only [insLower, if_neg hxy, if_neg hxz, sortedLowerB, Bool.and_eq_true]
          exact ⟨h1.1, h2⟩

theorem sortedLowerB_sortByLower (l : List String) :
    sortedLowerB (sortByLower l) = true := by
  induction l with
  | nil => rfl
  | cons x xs ih => exact sortedLowerB_insLower x (sortByLower xs) ih

/-! ## Claim C6: link resolution -/

/-- Claim C6: `resolvePageURL` looks up the title verbatim and, if
absent, the opposite underscore/space variant, returning `none` only
when neither lookup resolves; an article stored under `"Foo_Bar"`
resolves from `"Foo Bar"` to the same URL. -/
theorem resolvePageURL_spec (m : List (String × String)) (t : String) :
    (resolve_page_url m t = none ↔
      (listGet? m t = none ∧ listGet? m (altVariant t) = none))
    ∧ (∀ u, listGet? m "Foo Bar" = none → listGet? m "Foo_Bar" = some u →
        resolve_page_url m "Foo Bar" = some u) := by
  constructor
  · unfold resolve_page_url
    cases h : listGet? m t <;> simp [h]
  · intro u h1 h2
    unfold resolve_page_url
    rw [h1]
    have hv : altVariant "Foo Bar" = "Foo_Bar" := by decide
    rw [hv, h2]

theorem resolvePageURL_spec_witness :
    listGet? [("Foo_Bar", "pages/F/Foo_Bar.html")] "Foo Bar" = none ∧
    listGet? [("Foo_Bar", "pages/F/Foo_Bar.html")] "Foo_Bar" = some "pages/F/Foo_Bar.html" ∧
    resolve_page_url [("Foo_Bar", "pages/F/Foo_Bar.html")] "Foo Bar"
      = some "pages/F/Foo_Bar.html" :=
  ⟨by decide, by decide,
    (resolvePageURL_spec [("Foo_Bar", "pages/F/Foo_Bar.html")] "Foo Bar").2
      "pages/F/Foo_Bar.html" (by decide) (by decide)⟩

/-! ## Claim C7: unresolvable member pages are omitted from listings -/

theorem renderedPages_eq_filterMap (m : List (String × String)) (pages : List String) :
    renderedPages m pages
      = (sortByLower pages).filterMap
          (fun p => (resolve_page_url m p).map (fun u => (p, u))) := by
  unfold renderedPages
  generalize sortByLower pages = l
  suffices h : ∀ (l : List String) (acc : List (String × String)),
      l.foldl (fun acc p =>
        match resolve_page_url m p with
        | some url => acc ++ [(p, url)]
        | none => acc) acc
      = acc ++ l.filterMap (fun p => (resolve_page_url m p).map (fun u => (p, u))) by
    simpa using h l []
  intro l
  induction l with
  | nil => intro acc; simp
  | cons p ps ih =>
    intro acc
    cases h : resolve_page_url m p with
    | none => simp [List.foldl_cons, h, ih, List.filterMap_cons]
    | some u => simp [List.foldl_cons, h, ih, List.filterMap_cons]

/-- Claim C7: a member-page title appears (with a URL) among the rendered
`Pages` entries exactly when it is a member and the resolver succeeds on
it with that URL; in particular a title on which the resolver returns
`none` is omitted entirely. -/
theorem categoryPages_omit_unresolvable (m : List (String × String))
    (pages : List String) (p : String) :
    (∀ u, ((p, u) ∈ renderedPages m pages ↔
      (p ∈ pages ∧ resolve_page_url m p = some u)))
    ∧ (resolve_page_url m p = none → ∀ u, (p, u) ∉ renderedPages m pages) := by
  have key : ∀ u, ((p, u) ∈ renderedPages m pages ↔
      (p ∈ pages ∧ resolve_page_url m p = some u)) := by
    intro u
    rw [renderedPages_eq_filterMap, List.mem_filterMap]
    constructor
    · rintro ⟨q, hq, hfm⟩
      cases hr : resolve_page_url m q with
      | none => rw [hr] at hfm; simp at hfm
      | some v =>
        rw [hr] at hfm
        have hfm' : q = p ∧ v = u := by simpa using hfm
        obtain ⟨hqp, hvu⟩ := hfm'
        subst hqp; subst hvu
        exact ⟨(mem_sortByLower q pages).mp hq, hr⟩
    · rintro ⟨hp, hr⟩
      exact ⟨p, (mem_sortByLower p pages).mpr hp, by rw [hr]; rfl⟩
  refine ⟨key, fun hnone u hmem => ?_⟩
  have h2 := ((key u).mp hmem).2
  rw [hnone] at h2
  exact Option.noConfusion h2

theorem categoryPages_omit_unresolvable_witness :
    resolve_page_url [("A", "u")] "B" = none ∧
    ("B", "x") ∉ renderedPages [("A", "u")] ["A", "B"] :=
  ⟨by decide, (categoryPages_omit_unresolvable [("A", "u")] ["A", "B"] "B").2 (by decide) "x"⟩

/-! ## Claim C9: empty normalized category names -/

/-- An article whose catlinks anchor carries the title attribute exactly
`"Category:"`. -/
def docC9 : Doc :=
  { path := ["Empty.html"], isError := false,
    article := some ⟨"Empty", "<p>x</p>", "x"⟩,
    catlinkTitles := ["Category:"], isCatPage := false, heading := none,
    subcatTitles := [], pageTitles := [] }

/-- Claim C9: pass 1 records a category keyed by the empty string for a
catlinks anchor titled exactly `"Category:"`, and that key becomes a
graph node; pass 2, by contrast, adds a subcategory edge only when the
normalized name is non-empty (an empty name leaves the graph unchanged). -/
theorem pass1_keeps_empty_category_name :
    hasKeyL (buildPipeline [[docC9]]).graphFinal "" = true
    ∧ listGet? (buildPipeline [[docC9]]).disc.categories "" ≠ none
    ∧ (∀ (g : Graph) (cat t : String),
        normalize_category_name t = "" → pass2AddSubcat g cat t = g) := by
  refine ⟨by decide, by decide, ?_⟩
  intro g cat t h
  unfold pass2AddSubcat
  rw [h]
  exact if_neg (fun hc => hc rfl)

theorem pass1_keeps_empty_category_name_witness :
    normalize_category_name "Category:  " = "" ∧
    pass2AddSubcat [] "X" "Category:  " = [] :=
  ⟨by decide, pass1_keeps_empty_category_name.2.2 [] "X" "Category:  " (by decide)⟩

/-! ## Claim C1: the breadcrumb phase -/

/-- An article extracted from a nested source path: its category-index
set is non-empty, but the breadcrumb phase's source probe
(`base / (title + ".html")`) misses it. -/
def docFooNested : Doc :=
  { path := ["sub", "Foo.html"], isError := false,
    article := some ⟨"Foo", "<b>x</b>", "x"⟩,
    catlinkTitles := ["Category:Bar"], isCatPage := false, heading := none,
    subcatTitles := [], pageTitles := [] }

/-- Counterexample to claim C1 as stated: the article `"Foo"` has the
non-empty category-index set `["Bar"]` after all passes, yet the
breadcrumb phase performs no re-render for it (its source document lives
at `sub/Foo.html`, which the phase's root-level probe never finds). -/
theorem breadcrumb_rerender_counterexample :
    (listGet? (buildPipeline [[docFooNested]]).indexFinal "Foo").getD [] ≠ []
    ∧ (buildPipeline [[docFooNested]]).breadcrumbs = [none] :=
  ⟨by decide, by decide⟩

/-- Claim C1 (amended): for an article map item whose category-index set
is non-empty, the breadcrumb phase re-renders the page — with a strip
of the first 5 categories in case-insensitive alphabetical order, each
linking to that category's page — only when a source file named exactly
`title + ".html"` sits directly under some source root and re-extraction
yields an article; when the probe finds no such file, the page is left
as originally written, without breadcrumbs. -/
theorem breadcrumb_rerender_amended (roots : List (List Doc))
    (idx : List (String × List String)) (t f : String) (cs : List String)
    (hidx : listGet? idx t = some cs) (hne : sortByLower cs ≠ []) :
    (∀ d a, findSourceDoc roots t = some d → d.article = some a →
      breadcrumbAction roots idx (t, f)
        = some ⟨f, t, a.html, crumbsHtml ((sortByLower cs).take 5)⟩)
    ∧ (findSourceDoc roots t = none → breadcrumbAction roots idx (t, f) = none)
    ∧ sortedLowerB (sortByLower cs) = true := by
  refine ⟨?_, ?_, sortedLowerB_sortByLower cs⟩
  · intro d a hd ha
    simp only [breadcrumbAction, hidx, Option.getD_some, if_neg hne, hd, ha]
  · intro hd
    simp only [breadcrumbAction, hidx, Option.getD_some, if_neg hne, hd]

/-- A root-level source document for the witness. -/
def docBarRoot : Doc :=
  { path := ["Bar.html"], isError := false,
    article := some ⟨"Bar", "<p>b</p>", "b"⟩,
    catlinkTitles := [], isCatPage := false, heading := none,
    subcatTitles := [], pageTitles := [] }

theorem breadcrumb_rerender_amended_witness :
    findSourceDoc [[docBarRoot]] "Bar" = some docBarRoot ∧
    breadcrumbAction [[docBarRoot]] [("Bar", ["CatX"])] ("Bar", "pages/B/Bar.html")
      = some ⟨"pages/B/Bar.html", "Bar", "<p>b</p>",
          crumbsHtml ((sortByLower ["CatX"]).take 5)⟩ :=
  ⟨by decide,
    (breadcrumb_rerender_amended [[docBarRoot]] [("Bar", ["CatX"])] "Bar"
        "pages/B/Bar.html" ["CatX"] (by decide) (by decide)).1
      docBarRoot ⟨"Bar", "<p>b</p>", "b"⟩ (by decide) (by decide)⟩

/-! ## Dictionary and graph lemmas -/

theorem listGet?_graphUpdate_ne (g : Graph) (k key : String) (f : Node → Node)
    (h : key ≠ k) : listGet? (graphUpdate g k f) key = listGet? g key := by
  induction g with
  | nil => rfl
  | cons p ps ih =>
    by_cases hp : p.1 = k
    · have hpk : ¬ p.1 = key := fun hc => h (by rw [← hc, hp])
      simp [graphUpdate, if_pos hp, listGet?, if_neg hpk, hpk]
    · rw [graphUpdate, if_neg hp]
      by_cases hq : p.1 = key
      · simp [listGet?, if_pos hq, hq]
      · simp [listGet?, if_neg hq, hq, ih]

theorem listGet?_graphUpdate_self (g : Graph) (k : String) (f : Node → Node) :
    listGet? (graphUpdate g k f) k = (listGet? g k).map f := by
  induction g with
  | nil => rfl
  | cons p ps ih =>
    by_cases hp : p.1 = k
    · simp [graphUpdate, if_pos hp, listGet?, hp]
    · simp [graphUpdate, if_neg hp, listGet?, hp, ih]

/-! ## Claim C3: pass-2 page additions touch only the target node's pages -/

/-- Source root for the §8.7 end-to-end scenario: `Sword.html` with an
article titled `"Long Sword"` (no inline categories) and
`Category_Weapons.html`, a category page whose pages container lists
`"Long Sword"`. -/
def docSword : Doc :=
  { path := ["Sword.html"], isError := false,
    article := some ⟨"Long Sword", "<p>ls</p>", "ls"⟩,
    catlinkTitles := [], isCatPage := false, heading := none,
    subcatTitles := [], pageTitles := [] }

def docCatWeapons : Doc :=
  { path := ["Category_Weapons.html"], isError := false, article := none,
    catlinkTitles := [], isCatPage := true, heading := some "Category:Weapons",
    subcatTitles := [], pageTitles := ["Long Sword"] }

/-- Claim C3: a pass-2 page addition updates only the target node's
member-pages set — every other key is untouched, the target node's
subcategory set is untouched, an empty title is a no-op — and the
article-title-to-categories index never flows through pass 2: the final
index is exactly the pass-3 output over the discovery state.  In the
§8.7 scenario, `"Long Sword"` (found only via pass 2) ends in the
`Weapons` node's member pages while its category-index entry is absent
and its breadcrumb strip is never written. -/
theorem pass2_updates_only_memberPages (g : Graph) (cat t key : String) :
    (key ≠ cat → listGet? (pass2AddPage g cat t) key = listGet? g key)
    ∧ (∀ n, listGet? g cat = some n → t ≠ "" →
        listGet? (pass2AddPage g cat t) cat
          = some { n with pages := setInsert n.pages t })
    ∧ pass2AddPage g cat "" = g
    ∧ (∀ roots, (buildPipeline roots).indexFinal
        = (pass3 (discoveryRun roots.flatten).titleToFilename
            (sortDictValues (discoveryRun roots.flatten).categories,
             (discoveryRun roots.flatten).titleToCategories)).2)
    ∧ memB "Long Sword"
        ((listGet? (buildPipeline [[docSword, docCatWeapons]]).graphFinal
          "Weapons").getD emptyNode).pages = true
    ∧ listGet? (buildPipeline [[docSword, docCatWeapons]]).indexFinal "Long Sword" = none
    ∧ (buildPipeline [[docSword, docCatWeapons]]).breadcrumbs = [none] := by
  refine ⟨?_, ?_, ?_, fun roots => rfl, by decide, by decide, by decide⟩
  · intro hk
    unfold pass2AddPage
    by_cases ht : t ≠ ""
    · rw [if_pos ht]
      exact listGet?_graphUpdate_ne g cat key (fun n => { n with pages := setInsert n.pages t }) hk
    · rw [if_neg ht]
  · intro n hn ht
    unfold pass2AddPage
    rw [if_pos ht, listGet?_graphUpdate_self, hn]
    rfl
  · unfold pass2AddPage
    exact if_neg (fun hc => hc rfl)

theorem pass2_updates_only_memberPages_witness :
    (("X" : String) ≠ "Weapons"
      ∧ listGet? (pass2AddPage [("Weapons", emptyNode)] "Weapons" "Long Sword") "X"
          = listGet? [("Weapons", emptyNode)] "X")
    ∧ (listGet? [("Weapons", emptyNode)] "Weapons" = some emptyNode
      ∧ listGet? (pass2AddPage [("Weapons", emptyNode)] "Weapons" "Long Sword") "Weapons"
          = some { emptyNode with pages := setInsert emptyNode.pages "Long Sword" }) :=
  ⟨⟨by decide,
      (pass2_updates_only_memberPages [("Weapons", emptyNode)] "Weapons" "Long Sword" "X").1
        (by decide)⟩,
   ⟨by decide,
      (pass2_updates_only_memberPages [("Weapons", emptyNode)] "Weapons" "Long Sword" "X").2.1
        emptyNode (by decide) (by decide)⟩⟩

/-! ## Dictionary accumulation lemmas (for pass 3) -/

theorem listGet?_dictAppend_self {α : Type} (m : List (String × List α)) (k : String) (v : α) :
    listGet? (dictAppend m k v) k = some ((listGet? m k).getD [] ++ [v]) := by
  induction m with
  | nil => simp [dictAppend, listGet?]
  | cons p ps ih =>
    by_cases hp : p.1 = k
    · simp [dictAppend, if_pos hp, listGet?, hp]
    · simp [dictAppend, if_neg hp, listGet?, hp, ih]

theorem listGet?_dictAppend_ne {α : Type} (m : List (String × List α)) (k k' : String) (v : α)
    (h : k' ≠ k) : listGet? (dictAppend m k v) k' = listGet? m k' := by
  have h' : ¬ k = k' := fun hc => h hc.symm
  induction m with
  | nil => simp [dictAppend, listGet?, h']
  | cons p ps ih =>
    by_cases hp : p.1 = k
    · have hpk : ¬ p.1 = k' := fun hc => h (by rw [← hc, hp])
      simp [dictAppend, if_pos hp, listGet?, hpk]
    · by_cases hq : p.1 = k'
      · simp [dictAppend, if_neg hp, listGet?, hq, h, h']
      · simp [dictAppend, if_neg hp, listGet?, hq, ih]

theorem listGet?_dictSetInsert_self (m : List (String × List String)) (k v : String) :
    listGet? (dictSetInsert m k v) k = some (setInsert ((listGet? m k).getD []) v) := by
  induction m with
  | nil => simp [dictSetInsert, listGet?, setInsert, memB]
  | cons p ps ih =>
    by_cases hp : p.1 = k
    · simp [dictSetInsert, if_pos hp, listGet?, hp]
    · simp [dictSetInsert, if_neg hp, listGet?, hp, ih]

theorem listGet?_dictSetInsert_ne (m : List (String × List String)) (k k' v : String)
    (h : k' ≠ k) : listGet? (dictSetInsert m k v) k' = listGet? m k' := by
  have h' : ¬ k = k' := fun hc => h hc.symm
  induction m with
  | nil => simp [dictSetInsert, listGet?, h']
  | cons p ps ih =>
    by_cases hp : p.1 = k
    · have hpk : ¬ p.1 = k' := fun hc => h (by rw [← hc, hp])
      simp [dictSetInsert, if_pos hp, listGet?, hpk]
    · by_cases hq : p.1 = k'
      · simp [dictSetInsert, if_neg hp, listGet?, hq, h, h']
      · simp [dictSetInsert, if_neg hp, listGet?, hq, ih]

theorem mem_setInsert_self (s : List String) (v : String) : v ∈ setInsert s v := by
  unfold setInsert
  by_cases h : memB v s = true
  · rw [if_pos h]; exact (memB_iff v s).mp h
  · rw [if_neg h]; exact List.mem_append_right s (List.mem_singleton.mpr rfl)

theorem mem_setInsert_of_mem (s : List String) (v x : String) (h : x ∈ s) :
    x ∈ setInsert s v := by
  unfold setInsert
  by_cases hm : memB v s = true
  · rw [if_pos hm]; exact h
  · rw [if_neg hm]; exact List.mem_append_left _ h

theorem mem_dictAppend_of_mem {α : Type} (m : List (String × List α)) (k k' : String)
    (v x : α) (h : x ∈ (listGet? m k').getD []) :
    x ∈ (listGet? (dictAppend m k v) k').getD [] := by
  by_cases hk : k' = k
  · subst hk
    rw [listGet?_dictAppend_self]
    exact List.mem_append_left _ h
  · rw [listGet?_dictAppend_ne m k k' v hk]
    exact h

theorem mem_dictAppend_self {α : Type} (m : List (String × List α)) (k : String) (v : α) :
    v ∈ (listGet? (dictAppend m k v) k).getD [] := by
  rw [listGet?_dictAppend_self]
  exact List.mem_append_right _ (List.mem_singleton.mpr rfl)

theorem mem_dictSetInsert_of_mem (m : List (String × List String)) (k k' v x : String)
    (h : x ∈ (listGet? m k').getD []) :
    x ∈ (listGet? (dictSetInsert m k v) k').getD [] := by
  by_cases hk : k' = k
  · subst hk
    rw [listGet?_dictSetInsert_self]
    exact mem_setInsert_of_mem _ v x h
  · rw [listGet?_dictSetInsert_ne m k k' v hk]
    exact h

theorem mem_dictSetInsert_self (m : List (String × List String)) (k v : String) :
    v ∈ (listGet? (dictSetInsert m k v) k).getD [] := by
  rw [listGet?_dictSetInsert_self]
  exact mem_setInsert_self _ v

/-! ## Pass-3 membership lemmas -/

theorem p3RuleStep_mono_cat (tu : String × String) (st : P3State)
    (r : List String × String) (k : String) (x : Entry)
    (h : x ∈ (listGet? st.1 k).getD []) :
    x ∈ (listGet? (p3RuleStep tu st r).1 k).getD [] := by
  unfold p3RuleStep
  by_cases hm : patMatch r.1 tu.1 = true
  · rw [if_pos hm]
    exact mem_dictAppend_of_mem _ _ _ _ _ h
  · rw [if_neg hm]
    exact h

theorem p3RuleStep_mono_idx (tu : String × String) (st : P3State)
    (r : List String × String) (k x : String)
    (h : x ∈ (listGet? st.2 k).getD []) :
    x ∈ (listGet? (p3RuleStep tu st r).2 k).getD [] := by
  unfold p3RuleStep
  by_cases hm : patMatch r.1 tu.1 = true
  · rw [if_pos hm]
    exact mem_dictSetInsert_of_mem _ _ _ _ _ h
  · rw [if_neg hm]
    exact h

theorem p3Rules_mono_cat (rules : List (List String × String)) (tu : String × String)
    (st : P3State) (k : String) (x : Entry) (h : x ∈ (listGet? st.1 k).getD []) :
    x ∈ (listGet? (rules.foldl (p3RuleStep tu) st).1 k).getD [] := by
  induction rules generalizing st with
  | nil => exact h
  | cons r rs ih => exact ih _ (p3RuleStep_mono_cat tu st r k x h)

theorem p3Rules_mono_idx (rules : List (List String × String)) (tu : String × String)
    (st : P3State) (k x : String) (h : x ∈ (listGet? st.2 k).getD []) :
    x ∈ (listGet? (rules.foldl (p3RuleStep tu) st).2 k).getD [] := by
  induction rules generalizing st with
  | nil => exact h
  | cons r rs ih => exact ih _ (p3RuleStep_mono_idx tu st r k x h)

theorem p3Tf_mono_cat (rules : List (List String × String)) (tf : List (String × String))
    (st : P3State) (k : String) (x : Entry) (h : x ∈ (listGet? st.1 k).getD []) :
    x ∈ (listGet? (pass3With rules tf st).1 k).getD [] := by
  unfold pass3With
  induction tf generalizing st with
  | nil => exact h
  | cons tu tus ih => exact ih _ (p3Rules_mono_cat rules tu st k x h)

theorem p3Tf_mono_idx (rules : List (List String × String)) (tf : List (String × String))
    (st : P3State) (k x : String) (h : x ∈ (listGet? st.2 k).getD []) :
    x ∈ (listGet? (pass3With rules tf st).2 k).getD [] := by
  unfold pass3With
  induction tf generalizing st with
  | nil => exact h
  | cons tu tus ih => exact ih _ (p3Rules_mono_idx rules tu st k x h)

theorem p3Rules_establish (rules : List (List String × String)) (tu : String × String)
    (st : P3State) (r : List String × String) (hr : r ∈ rules)
    (hm : patMatch r.1 tu.1 = true) :
    Entry.mk tu.1 tu.2 ∈ (listGet? (rules.foldl (p3RuleStep tu) st).1 r.2).getD []
    ∧ r.2 ∈ (listGet? (rules.foldl (p3RuleStep tu) st).2 tu.1).getD [] := by
  induction rules generalizing st with
  | nil => cases hr
  | cons r0 rs ih =>
    rw [List.foldl_cons]
    rcases List.mem_cons.mp hr with h0 | h0
    · subst h0
      have h1 : (p3RuleStep tu st r).1 = dictAppend st.1 r.2 ⟨tu.1, tu.2⟩ := by
        unfold p3RuleStep; rw [if_pos hm]
      have h2 : (p3RuleStep tu st r).2 = dictSetInsert st.2 tu.1 r.2 := by
        unfold p3RuleStep; rw [if_pos hm]
      have hm1 : Entry.mk tu.1 tu.2 ∈ (listGet? (p3RuleStep tu st r).1 r.2).getD [] := by
        rw [h1]; exact mem_dictAppend_self _ _ _
      have hm2 : r.2 ∈ (listGet? (p3RuleStep tu st r).2 tu.1).getD [] := by
        rw [h2]; exact mem_dictSetInsert_self _ _ _
      exact ⟨p3Rules_mono_cat rs tu _ _ _ hm1, p3Rules_mono_idx rs tu _ _ _ hm2⟩
    · exact ih (p3RuleStep tu st r0) h0

theorem pass3_adds_match (tf : List (String × String)) (t u : String)
    (r : List String × String)
    (ht : (t, u) ∈ tf) (hr : r ∈ curated_taxonomy) (hm : patMatch r.1 t = true) :
    ∀ (st : P3State),
      Entry.mk t u ∈ (listGet? (pass3With curated_taxonomy tf st).1 r.2).getD []
      ∧ r.2 ∈ (listGet? (pass3With curated_taxonomy tf st).2 t).getD [] := by
  intro st
  induction tf generalizing st with
  | nil => cases ht
  | cons tu tus ih =>
    have hstep : pass3With curated_taxonomy (tu :: tus) st
        = pass3With curated_taxonomy tus (curated_taxonomy.foldl (p3RuleStep tu) st) := by
      unfold pass3With
      rw [List.foldl_cons]
    rw [hstep]
    rcases List.mem_cons.mp ht with h0 | h0
    · have hm' : patMatch r.1 tu.1 = true := by rw [← h0]; exact hm
      have hest := p3Rules_establish curated_taxonomy tu st r hr hm'
      constructor
      · apply p3Tf_mono_cat
        have he : Entry.mk tu.1 tu.2 = Entry.mk t u := by rw [← h0]
        exact he ▸ hest.1
      · apply p3Tf_mono_idx
        have he : tu.1 = t := by rw [← h0]
        exact he ▸ hest.2
    · exact ih h0 _

/-- Claim C4: in the curated-taxonomy pass, every rule of the ordered
rule list whose pattern matches a known article title adds that title to
the target category's member list and the target category to the title's
category-index set — with no first-match short-circuit, so a title
matching several rules lands in all of their targets. -/
theorem curated_rules_no_shortcircuit (tf : List (String × String))
    (c0 : List (String × List Entry)) (i0 : List (String × List String))
    (t u : String) (r : List String × String)
    (ht : (t, u) ∈ tf) (hr : r ∈ curated_taxonomy) (hm : patMatch r.1 t = true) :
    Entry.mk t u ∈ (listGet? (pass3 tf (c0, i0)).1 r.2).getD []
    ∧ r.2 ∈ (listGet? (pass3 tf (c0, i0)).2 t).getD [] :=
  pass3_adds_match tf t u r ht hr hm (c0, i0)

theorem curated_rules_no_shortcircuit_witness :
    (Entry.mk "Shield Quest" "u"
       ∈ (listGet? (pass3 [("Shield Quest", "u")] ([], [])).1 "Equipment").getD []
     ∧ "Equipment" ∈ (listGet? (pass3 [("Shield Quest", "u")] ([], [])).2 "Shield Quest").getD [])
    ∧ (Entry.mk "Shield Quest" "u"
       ∈ (listGet? (pass3 [("Shield Quest", "u")] ([], [])).1 "Quests").getD []
     ∧ "Quests" ∈ (listGet? (pass3 [("Shield Quest", "u")] ([], [])).2 "Shield Quest").getD []) :=
  ⟨curated_rules_no_shortcircuit [("Shield Quest", "u")] [] [] "Shield Quest" "u"
      (curated_taxonomy.get ⟨0, by decide⟩) (by decide)
      (List.get_mem curated_taxonomy 0 (by decide)) (by decide),
   curated_rules_no_shortcircuit [("Shield Quest", "u")] [] [] "Shield Quest" "u"
      (curated_taxonomy.get ⟨2, by decide⟩) (by decide)
      (List.get_mem curated_taxonomy 2 (by decide)) (by decide)⟩

/-! ## Claim C2: no dangling subcategory references -/

/-- Closure invariant: every subcategory referenced anywhere in the graph
is itself a key of the graph. -/
def ClosedP (g : Graph) : Prop :=
  ∀ p ∈ g, ∀ s ∈ p.2.subcats, hasKeyL g s = true

/-- Executable form of the closure invariant. -/
def graphClosedB (g : Graph) : Bool :=
  g.all (fun p => p.2.subcats.all (fun s => hasKeyL g s))

theorem mem_graphSetdefault {g : Graph} {k : String} {x : String × Node}
    (h : x ∈ graphSetdefault g k) : x ∈ g ∨ x = (k, emptyNode) := by
  induction g with
  | nil =>
    simp only [graphSetdefault, List.mem_singleton] at h
    exact Or.inr h
  | cons p ps ih =>
    by_cases hp : p.1 = k
    · rw [graphSetdefault, if_pos hp] at h
      exact Or.inl h
    · rw [graphSetdefault, if_neg hp] at h
      rcases List.mem_cons.mp h with h0 | h0
      · exact Or.inl (h0 ▸ List.mem_cons_self p ps)
      · rcases ih h0 with h1 | h1
        · exact Or.inl (List.mem_cons_of_mem p h1)
        · exact Or.inr h1

theorem hasKeyL_graphSetdefault_mono (g : Graph) (k s : String)
    (h : hasKeyL g s = true) : hasKeyL (graphSetdefault g k) s = true := by
  induction g with
  | nil => simp [hasKeyL, listGet?] at h
  | cons p ps ih =>
    by_cases hp : p.1 = k
    · rwa [graphSetdefault, if_pos hp]
    · rw [graphSetdefault, if_neg hp]
      by_cases hq : p.1 = s
      · simp [hasKeyL, listGet?, hq]
      · rw [hasKeyL, listGet?, if_neg hq] at h ⊢
        exact ih h

theorem hasKeyL_graphSetdefault_self (g : Graph) (k : String) :
    hasKeyL (graphSetdefault g k) k = true := by
  induction g with
  | nil => simp [graphSetdefault, hasKeyL, listGet?]
  | cons p ps ih =>
    by_cases hp : p.1 = k
    · simp [graphSetdefault, if_pos hp, hasKeyL, listGet?, hp]
    · rw [graphSetdefault, if_neg hp, hasKeyL, listGet?, if_neg hp]
      exact ih

theorem hasKeyL_graphUpdate (g : Graph) (k s : String) (f : Node → Node) :
    hasKeyL (graphUpdate g k f) s = hasKeyL g s := by
  induction g with
  | nil => rfl
  | cons p ps ih =>
    by_cases hp : p.1 = k
    · rw [graphUpdate, if_pos hp]
      by_cases hq : p.1 = s
      · simp [hasKeyL, listGet?, hq]
      · simp [hasKeyL, listGet?, hq]
    · rw [graphUpdate, if_neg hp]
      by_cases hq : p.1 = s
      · simp [hasKeyL, listGet?, hq]
      · simpa [hasKeyL, listGet?, hq] using ih

theorem mem_graphUpdate {g : Graph} {k : String} {f : Node → Node} {x : String × Node}
    (h : x ∈ graphUpdate g k f) : x ∈ g ∨ ∃ n, (k, n) ∈ g ∧ x = (k, f n) := by
  induction g with
  | nil => cases h
  | cons p ps ih =>
    by_cases hp : p.1 = k
    · rw [graphUpdate, if_pos hp] at h
      rcases List.mem_cons.mp h with h0 | h0
      · refine Or.inr ⟨p.2, ?_, by rw [h0, hp]⟩
        have : p = (k, p.2) := by
          rw [← hp]
        exact this ▸ List.mem_cons_self p ps
      · exact Or.inl (List.mem_cons_of_mem p h0)
    · rw [graphUpdate, if_neg hp] at h
      rcases List.mem_cons.mp h with h0 | h0
      · exact Or.inl (h0 ▸ List.mem_cons_self p ps)
      · rcases ih h0 with h1 | h1
        · exact Or.inl (List.mem_cons_of_mem p h1)
        · exact Or.inr ⟨h1.choose, List.mem_cons_of_mem p h1.choose_spec.1, h1.choose_spec.2⟩

theorem mem_of_setInsert {s : List String} {v x : String} (h : x ∈ setInsert s v) :
    x ∈ s ∨ x = v := by
  unfold setInsert at h
  by_cases hm : memB v s = true
  · rw [if_pos hm] at h
    exact Or.inl h
  · rw [if_neg hm] at h
    rcases List.mem_append.mp h with h0 | h0
    · exact Or.inl h0
    · exact Or.inr (List.mem_singleton.mp h0)

theorem closed_graphSetdefault {g : Graph} (k : String) (h : ClosedP g) :
    ClosedP (graphSetdefault g k) := by
  intro p hp s hs
  rcases mem_graphSetdefault hp with h0 | h0
  · exact hasKeyL_graphSetdefault_mono g k s (h p h0 s hs)
  · rw [h0] at hs
    cases hs

theorem closed_pagesUpdate {g : Graph} (k t : String) (h : ClosedP g) :
    ClosedP (graphUpdate g k (fun n => { n with pages := setInsert n.pages t })) := by
  intro p hp s hs
  rw [hasKeyL_graphUpdate]
  rcases mem_graphUpdate hp with h0 | ⟨n, hn, h0⟩
  · exact h p h0 s hs
  · rw [h0] at hs
    exact h (k, n) hn s hs

theorem closed_pass2AddPage {g : Graph} (k t : String) (h : ClosedP g) :
    ClosedP (pass2AddPage g k t) := by
  unfold pass2AddPage
  by_cases ht : t ≠ ""
  · rw [if_pos ht]
    exact closed_pagesUpdate k t h
  · rw [if_neg ht]
    exact h

theorem closed_pass2AddSubcat {g : Graph} (c t : String) (h : ClosedP g) :
    ClosedP (pass2AddSubcat g c t) := by
  unfold pass2AddSubcat
  by_cases hne : normalize_category_name t ≠ ""
  · rw [if_pos hne]
    intro p hp s hs
    rcases mem_graphSetdefault hp with h0 | h0
    · rcases mem_graphUpdate h0 with h1 | ⟨n, hn, h1⟩
      · exact hasKeyL_graphSetdefault_mono _ _ s
          ((hasKeyL_graphUpdate g c s _).symm ▸ h p h1 s hs)
      · rw [h1] at hs
        rcases mem_of_setInsert hs with h2 | h2
        · exact hasKeyL_graphSetdefault_mono _ _ s
            ((hasKeyL_graphUpdate g c s _).symm ▸ h (c, n) hn s h2)
        · rw [h2]
          exact hasKeyL_graphSetdefault_self _ _
    · rw [h0] at hs
      cases hs
  · rw [if_neg hne]
    exact h

theorem closed_subcatFold (ts : List String) (c : String) {g : Graph} (h : ClosedP g) :
    ClosedP (ts.foldl (fun g t => pass2AddSubcat g c t) g) := by
  induction ts generalizing g with
  | nil => exact h
  | cons t ts ih => exact ih (closed_pass2AddSubcat c t h)

theorem closed_pagesFold (ts : List String) (c : String) {g : Graph} (h : ClosedP g) :
    ClosedP (ts.foldl (fun g t => pass2AddPage g c t) g) := by
  induction ts generalizing g with
  | nil => exact h
  | cons t ts ih => exact ih (closed_pass2AddPage c t h)

theorem closed_processCatDoc (d : Doc) {g : Graph} (h : ClosedP g) :
    ClosedP (processCatDoc g d) := by
  unfold processCatDoc
  by_cases he : (d.isError || !d.isCatPage) = true
  · rw [if_pos he]
    exact h
  · rw [if_neg he]
    cases d.heading with
    | none => exact h
    | some raw =>
      unfold processCatBody
      exact closed_pagesFold _ _ (closed_subcatFold _ _ (closed_graphSetdefault _ h))

theorem closed_pass2Run (cdocs : List Doc) {g : Graph} (h : ClosedP g) :
    ClosedP (pass2Run g cdocs) := by
  unfold pass2Run
  induction cdocs generalizing g with
  | nil => exact h
  | cons d ds ih => exact ih (closed_processCatDoc d h)

theorem closed_mergeCategories (cats : List (String × List Entry)) {g : Graph}
    (h : ClosedP g) : ClosedP (mergeCategories g cats) := by
  unfold mergeCategories
  induction cats generalizing g with
  | nil => exact h
  | cons p ps ih =>
    rw [List.foldl_cons]
    apply ih
    have h1 : ClosedP (graphSetdefault g p.1) := closed_graphSetdefault _ h
    generalize hg : graphSetdefault g p.1 = g1 at h1
    clear hg h
    induction p.2 generalizing g1 with
    | nil => exact h1
    | cons it its ihe => exact ihe _ (closed_pagesUpdate _ _ h1)

theorem closed_curatedRoots (rs : List String) {g : Graph} (h : ClosedP g) :
    ClosedP (rs.foldl graphSetdefault g) := by
  induction rs generalizing g with
  | nil => exact h
  | cons r rs ih => exact ih (closed_graphSetdefault _ h)

theorem closed_nil : ClosedP ([] : Graph) := by
  intro p hp
  cases hp

/-- Claim C2: after the whole category-graph construction (pass 2, both
merges, and curated-root insertion), every name in any node's
subcategory set is itself a key of the graph. -/
theorem category_graph_no_dangling_subcats (roots : List (List Doc)) :
    graphClosedB (buildPipeline roots).graphFinal = true := by
  have hclosed : ClosedP (pipeGraphFinal roots) := by
    unfold pipeGraphFinal pipeGraphMerged
    exact closed_curatedRoots _
      (closed_mergeCategories _
        (closed_mergeCategories _ (closed_pass2Run _ closed_nil)))
  rw [buildPipeline_graphFinal, graphClosedB, List.all_eq_true]
  intro p hp
  rw [List.all_eq_true]
  intro s hs
  exact hclosed p hp s hs

/-! ## Claim C8: first occurrence wins -/

/-- The subsequence of documents the discovery loop accepts, given the
titles already seen: a document is kept exactly when it yields a title
not yet seen. -/
def acceptedDocsFrom (seen : List String) : List Doc → List Doc
  | [] => []
  | d :: ds =>
    match docTitle? d with
    | none => acceptedDocsFrom seen ds
    | some t =>
      if memB t seen then acceptedDocsFrom seen ds
      else d :: acceptedDocsFrom (seen ++ [t]) ds

def acceptedDocs (docs : List Doc) : List Doc := acceptedDocsFrom [] docs

/-- The search-index entry an accepted document contributes. -/
def docSearchEntry (d : Doc) : SearchEntry :=
  match d.article with
  | some a => ⟨a.title, urlOfTitle a.title, a.text⟩
  | none => ⟨"", "", ""⟩

theorem docTitle?_some {d : Doc} {t : String} (h : docTitle? d = some t) :
    d.isError = false ∧ ∃ a, d.article = some a ∧ a.title = t ∧ t ≠ "" := by
  cases he : d.isError with
  | true => simp [docTitle?, he] at h
  | false =>
    cases ha : d.article with
    | none => simp [docTitle?, he, ha] at h
    | some a =>
      by_cases ht : a.title = ""
      · simp [docTitle?, he, ha, ht] at h
      · simp [docTitle?, he, ha, ht] at h
        exact ⟨rfl, a, rfl, h, by rw [← h]; exact ht⟩

theorem processDoc_none {st : DiscoveryState} {d : Doc} (h : docTitle? d = none) :
    processDoc st d = st := by
  cases he : d.isError with
  | true => simp [processDoc, he]
  | false =>
    cases ha : d.article with
    | none => simp [processDoc, he, ha]
    | some a =>
      by_cases ht : a.title = ""
      · simp [processDoc, he, ha, ht]
      · exfalso
        simp [docTitle?, he, ha, ht] at h

theorem processDoc_seen {st : DiscoveryState} {d : Doc} {t : String}
    (h : docTitle? d = some t) (hs : memB t st.seenTitles = true) :
    processDoc st d = st := by
  obtain ⟨he, a, ha, hat, hne⟩ := docTitle?_some h
  subst hat
  simp [processDoc, he, ha, hne, hs]

theorem processDoc_accept {st : DiscoveryState} {d : Doc} {t : String}
    (h : docTitle? d = some t) (hs : memB t st.seenTitles = false) :
    ∃ a, d.article = some a ∧ a.title = t ∧ processDoc st d = acceptDoc st d a := by
  obtain ⟨he, a, ha, hat, hne⟩ := docTitle?_some h
  subst hat
  exact ⟨a, ha, rfl, by simp [processDoc, he, ha, hne, hs]⟩

theorem discovery_characterization (docs : List Doc) (st : DiscoveryState) :
    (docs.foldl processDoc st).searchIndex
      = st.searchIndex ++ (acceptedDocsFrom st.seenTitles docs).map docSearchEntry
    ∧ (docs.foldl processDoc st).titleToFilename
      = st.titleToFilename ++ (acceptedDocsFrom st.seenTitles docs).map
          (fun d => ((docTitle? d).getD "", urlOfTitle ((docTitle? d).getD "")))
    ∧ (docs.foldl processDoc st).seenTitles
      = st.seenTitles ++ (acceptedDocsFrom st.seenTitles docs).map
          (fun d => (docTitle? d).getD "") := by
  induction docs generalizing st with
  | nil => simp [acceptedDocsFrom]
  | cons d ds ih =>
    rw [List.foldl_cons]
    cases hdt : docTitle? d with
    | none =>
      rw [processDoc_none hdt]
      have hacc : acceptedDocsFrom st.seenTitles (d :: ds)
          = acceptedDocsFrom st.seenTitles ds := by
        rw [acceptedDocsFrom, hdt]
      rw [hacc]
      exact ih st
    | some t =>
      cases hs : memB t st.seenTitles with
      | true =>
        rw [processDoc_seen hdt hs]
        have hacc : acceptedDocsFrom st.seenTitles (d :: ds)
            = acceptedDocsFrom st.seenTitles ds := by
          simp [acceptedDocsFrom, hdt, hs]
        rw [hacc]
        exact ih st
      | false =>
        obtain ⟨a, ha, hat, hstep⟩ := processDoc_accept hdt hs
        rw [hstep]
        have hacc : acceptedDocsFrom st.seenTitles (d :: ds)
            = d :: acceptedDocsFrom (st.seenTitles ++ [t]) ds := by
          simp [acceptedDocsFrom, hdt, hs]
        rw [hacc]
        have hseen : (acceptDoc st d a).seenTitles = st.seenTitles ++ [t] := by
          rw [acceptDoc]
          rw [hat]
        have hsi : (acceptDoc st d a).searchIndex
            = st.searchIndex ++ [⟨t, urlOfTitle t, a.text⟩] := by
          rw [acceptDoc]
          rw [hat]
        have htf : (acceptDoc st d a).titleToFilename
            = st.titleToFilename ++ [(t, urlOfTitle t)] := by
          rw [acceptDoc]
          rw [hat]
        have hde : docSearchEntry d = ⟨t, urlOfTitle t, a.text⟩ := by
          simp [docSearchEntry, ha, hat]
        obtain ⟨ih1, ih2, ih3⟩ := ih (acceptDoc st d a)
        rw [hseen, hsi] at ih1
        rw [hseen, htf] at ih2
        rw [hseen] at ih3
        refine ⟨?_, ?_, ?_⟩
        · rw [ih1]
          simp [hde, List.append_assoc]
        · rw [ih2]
          simp [hdt, List.append_assoc]
        · rw [ih3]
          simp [hdt, List.append_assoc]

/-- Claim C8: only the first document producing a given title (in
source-root priority order then traversal order) contributes an article,
search-index entry and output page — the discovery results are exactly
the per-document contributions of the accepted-document subsequence —
and a later document whose title was already seen changes no
accumulated state at all. -/
theorem first_occurrence_wins (docs : List Doc) :
    (discoveryRun docs).searchIndex = (acceptedDocs docs).map docSearchEntry
    ∧ (discoveryRun docs).titleToFilename
      = (acceptedDocs docs).map
          (fun d => ((docTitle? d).getD "", urlOfTitle ((docTitle? d).getD "")))
    ∧ (∀ (st : DiscoveryState) (d : Doc) (t : String),
        docTitle? d = some t → memB t st.seenTitles = true → processDoc st d = st) := by
  obtain ⟨h1, h2, h3⟩ := discovery_characterization docs initDiscovery
  exact ⟨by simpa [initDiscovery, acceptedDocs] using h1,
         by simpa [initDiscovery, acceptedDocs] using h2,
         fun st d t ht hs => processDoc_seen ht hs⟩

/-- A duplicate of the `"Long Sword"` source document, discovered later. -/
def docSwordDup : Doc :=
  { path := ["other", "Sword.html"], isError := false,
    article := some ⟨"Long Sword", "<p>dup</p>", "dup"⟩,
    catlinkTitles := [], isCatPage := false, heading := none,
    subcatTitles := [], pageTitles := [] }

theorem first_occurrence_wins_witness :
    docTitle? docSwordDup = some "Long Sword"
    ∧ memB "Long Sword" (discoveryRun [docSword]).seenTitles = true
    ∧ processDoc (discoveryRun [docSword]) docSwordDup = discoveryRun [docSword] :=
  ⟨by decide, by decide,
    (first_occurrence_wins [docSword]).2.2 (discoveryRun [docSword]) docSwordDup
      "Long Sword" (by decide) (by decide)⟩

/-! ## Claim C10: discovery indexes stay in one-to-one correspondence -/

/-- All A–Z entries across all buckets, in bucket order. -/
def azFlat (st : DiscoveryState) : List Entry := (st.aToZ.map Prod.snd).flatten

theorem azFlat_dictAppend (m : List (String × List Entry)) (k : String) (v : Entry) :
    (((dictAppend m k v).map Prod.snd).flatten).Perm ((m.map Prod.snd).flatten ++ [v]) := by
  induction m with
  | nil => simp [dictAppend]
  | cons p ps ih =>
    by_cases hp : p.1 = k
    · rw [dictAppend, if_pos hp]
      simp only [List.map_cons, List.flatten_cons, List.append_assoc]
      exact List.Perm.append_left p.2 (List.perm_append_comm.trans (List.Perm.refl _)).symm.symm
    · rw [dictAppend, if_neg hp]
      simp only [List.map_cons, List.flatten_cons, List.append_assoc]
      exact List.Perm.append_left p.2 ih

theorem listGet?_isSome_iff_mem_keys {α : Type} (m : List (String × α)) (k : String) :
    (listGet? m k).isSome = true ↔ k ∈ m.map Prod.fst := by
  induction m with
  | nil => simp [listGet?]
  | cons p ps ih =>
    by_cases hp : p.1 = k
    · simp [listGet?, hp]
    · rw [listGet?, if_neg hp, List.map_cons, List.mem_cons]
      constructor
      · intro hsome
        exact Or.inr (ih.mp hsome)
      · intro hmem
        rcases hmem with h0 | h0
        · exact (hp h0.symm).elim
        · exact ih.mpr h0

theorem memB_false_not_mem {t : String} {l : List String} (h : memB t l = false) : t ∉ l := by
  intro hc
  rw [(memB_iff t l).mpr hc] at h
  exact Bool.true_eq_false.mp h

/-- The full invariant the discovery loop maintains. -/
def DiscInv (st : DiscoveryState) : Prop :=
  st.searchIndex.map SearchEntry.title = st.seenTitles
  ∧ st.titleToFilename.map Prod.fst = st.seenTitles
  ∧ st.seenTitles.Nodup
  ∧ (((azFlat st).map Entry.title).Perm st.seenTitles)
  ∧ (∀ e ∈ st.searchIndex, e.url = urlOfTitle e.title)
  ∧ (∀ p ∈ st.titleToFilename, p.2 = urlOfTitle p.1)
  ∧ (∀ e ∈ azFlat st, e.url = urlOfTitle e.title)

theorem discInv_init : DiscInv initDiscovery := by
  refine ⟨rfl, rfl, List.nodup_nil, List.Perm.refl _, ?_, ?_, ?_⟩ <;>
    (intro e he; cases he)

theorem acceptDoc_aToZ (st : DiscoveryState) (d : Doc) (a : Article) :
    (acceptDoc st d a).aToZ
      = dictAppend st.aToZ (azKey a.title) ⟨a.title, urlOfTitle a.title⟩ := rfl

theorem discInv_step (st : DiscoveryState) (d : Doc) (h : DiscInv st) :
    DiscInv (processDoc st d) := by
  cases hdt : docTitle? d with
  | none => rw [processDoc_none hdt]; exact h
  | some t =>
    cases hs : memB t st.seenTitles with
    | true => rw [processDoc_seen hdt hs]; exact h
    | false =>
      obtain ⟨a, ha, hat, hstep⟩ := processDoc_accept hdt hs
      rw [hstep]
      obtain ⟨i1, i2, i3, i4, i5, i6, i7⟩ := h
      have htnotin : t ∉ st.seenTitles := memB_false_not_mem hs
      have hsi : (acceptDoc st d a).searchIndex
          = st.searchIndex ++ [⟨t, urlOfTitle t, a.text⟩] := by rw [acceptDoc, hat]
      have htf : (acceptDoc st d a).titleToFilename
          = st.titleToFilename ++ [(t, urlOfTitle t)] := by rw [acceptDoc, hat]
      have hseen : (acceptDoc st d a).seenTitles = st.seenTitles ++ [t] := by
        rw [acceptDoc, hat]
      have haz : (acceptDoc st d a).aToZ
          = dictAppend st.aToZ (azKey t) ⟨t, urlOfTitle t⟩ := by
        rw [acceptDoc_aToZ, hat]
      have hazperm : (azFlat (acceptDoc st d a)).Perm (azFlat st ++ [⟨t, urlOfTitle t⟩]) := by
        rw [azFlat, haz]
        exact azFlat_dictAppend st.aToZ (azKey t) ⟨t, urlOfTitle t⟩
      refine ⟨?_, ?_, ?_, ?_, ?_, ?_, ?_⟩
      · rw [hsi, hseen, List.map_append, i1]; rfl
      · rw [htf, hseen, List.map_append, i2]; rfl
      · rw [hseen]
        rw [List.nodup_append]
        exact ⟨i3, List.nodup_singleton t,
          fun x hx hx1 => htnotin ((List.mem_singleton.mp hx1) ▸ hx)⟩
      · rw [hseen]
        have h1 : ((azFlat (acceptDoc st d a)).map Entry.title).Perm
            ((azFlat st ++ [Entry.mk t (urlOfTitle t)]).map Entry.title) := hazperm.map _
        have h2 : (azFlat st ++ [Entry.mk t (urlOfTitle t)]).map Entry.title
            = (azFlat st).map Entry.title ++ [t] := by
          rw [List.map_append]
          rfl
        rw [h2] at h1
        exact h1.trans (i4.append_right [t])
      · rw [hsi]
        intro e he
        rcases List.mem_append.mp he with h0 | h0
        · exact i5 e h0
        · rw [List.mem_singleton.mp h0]
      · rw [htf]
        intro p hp
        rcases List.mem_append.mp hp with h0 | h0
        · exact i6 p h0
        · rw [List.mem_singleton.mp h0]
      · intro e he
        have he' : e ∈ azFlat st ++ [⟨t, urlOfTitle t⟩] := hazperm.mem_iff.mp he
        rcases List.mem_append.mp he' with h0 | h0
        · exact i7 e h0
        · rw [List.mem_singleton.mp h0]

theorem discInv_run (docs : List Doc) : DiscInv (discoveryRun docs) := by
  rw [discoveryRun]
  have hgen : ∀ (st : DiscoveryState), DiscInv st → DiscInv (docs.foldl processDoc st) := by
    induction docs with
    | nil => exact fun st h => h
    | cons d ds ih => exact fun st h => ih _ (discInv_step st d h)
  exact hgen initDiscovery discInv_init

/-- Claim C10: throughout article discovery the search index, the A–Z
buckets and the title-to-URL mapping stay in one-to-one correspondence:
search-index titles are pairwise distinct and equal (in order) to the
mapping's keys, the flattened A–Z entries are a permutation of them
(hence each accepted title sits in exactly one bucket entry, without
duplicates), and every index or bucket entry carries exactly the URL the
mapping stores for its title. -/
theorem discovery_indexes_one_to_one (docs : List Doc) :
    ((discoveryRun docs).searchIndex.map SearchEntry.title).Nodup
    ∧ (discoveryRun docs).titleToFilename.map Prod.fst
        = (discoveryRun docs).searchIndex.map SearchEntry.title
    ∧ ((azFlat (discoveryRun docs)).map Entry.title).Perm
        ((discoveryRun docs).searchIndex.map SearchEntry.title)
    ∧ ((azFlat (discoveryRun docs)).map Entry.title).Nodup
    ∧ (∀ e ∈ (discoveryRun docs).searchIndex,
        listGet? (discoveryRun docs).titleToFilename e.title = some e.url)
    ∧ (∀ e ∈ azFlat (discoveryRun docs),
        listGet? (discoveryRun docs).titleToFilename e.title = some e.url) := by
  obtain ⟨i1, i2, i3, i4, i5, i6, i7⟩ := discInv_run docs
  have keylookup : ∀ (k : String), k ∈ (discoveryRun docs).seenTitles →
      listGet? (discoveryRun docs).titleToFilename k = some (urlOfTitle k) := by
    intro k hk
    have hmem : k ∈ (discoveryRun docs).titleToFilename.map Prod.fst := by
      rw [i2]; exact hk
    have hsome := (listGet?_isSome_iff_mem_keys _ k).mpr hmem
    cases hv : listGet? (discoveryRun docs).titleToFilename k with
    | none => rw [hv] at hsome; simp at hsome
    | some v =>
      have hval := i6 (k, v) (mem_of_listGet? hv)
      exact congrArg some hval
  refine ⟨?_, ?_, ?_, ?_, ?_, ?_⟩
  · rw [i1]; exact i3
  · rw [i1]; exact i2
  · rw [i1]; exact i4
  · exact i4.nodup_iff.mpr i3
  · intro e he
    have ht : e.title ∈ (discoveryRun docs).seenTitles := by
      rw [← i1]; exact List.mem_map_of_mem _ he
    rw [keylookup e.title ht, i5 e he]
  · intro e he
    have ht : e.title ∈ (discoveryRun docs).seenTitles :=
      i4.mem_iff.mp (List.mem_map_of_mem _ he)
    rw [keylookup e.title ht, i7 e he]

/-- A one-article source for the witness. -/
def docAz : Doc :=
  { path := ["Alpha.html"], isError := false,
    article := some ⟨"Alpha", "<p>a</p>", "atext"⟩,
    catlinkTitles := [], isCatPage := false, heading := none,
    subcatTitles := [], pageTitles := [] }

theorem discovery_indexes_one_to_one_witness :
    SearchEntry.mk "Alpha" (urlOfTitle "Alpha") "atext" ∈ (discoveryRun [docAz]).searchIndex
    ∧ listGet? (discoveryRun [docAz]).titleToFilename "Alpha" = some (urlOfTitle "Alpha") :=
  ⟨by decide,
    (discovery_indexes_one_to_one [docAz]).2.2.2.2.1
      (SearchEntry.mk "Alpha" (urlOfTitle "Alpha") "atext") (by decide)⟩

/-! ## Claim C5: idempotence of the enrichment passes -/

theorem mem_getD_some {m : List (String × List String)} {k x : String}
    (h : x ∈ (listGet? m k).getD []) :
    ∃ s, listGet? m k = some s ∧ memB x s = true := by
  cases hv : listGet? m k with
  | none => rw [hv] at h; cases h
  | some s =>
    rw [hv] at h
    exact ⟨s, rfl, (memB_iff x s).mpr h⟩

theorem setInsert_eq_of_memB {s : List String} {v : String} (h : memB v s = true) :
    setInsert s v = s := by
  rw [setInsert, if_pos h]

theorem dictSetInsert_eq_self (m : List (String × List String)) (k v : String)
    (s : List String) (h1 : listGet? m k = some s) (h2 : memB v s = true) :
    dictSetInsert m k v = m := by
  induction m with
  | nil => cases h1
  | cons p ps ih =>
    by_cases hp : p.1 = k
    · have hs : p.2 = s := by simpa [listGet?, hp] using h1
      rw [dictSetInsert, if_pos hp, setInsert_eq_of_memB (hs ▸ h2)]
    · rw [listGet?, if_neg hp] at h1
      rw [dictSetInsert, if_neg hp, ih h1]

/-- Index saturation: every matched (title, rule) pair is already
recorded. -/
def P3IdxSat (i : List (String × List String)) (tf : List (String × String)) : Prop :=
  ∀ tu ∈ tf, ∀ r ∈ curated_taxonomy, patMatch r.1 tu.1 = true →
    ∃ s, listGet? i tu.1 = some s ∧ memB r.2 s = true

theorem p3IdxSat_after (tf : List (String × String)) (st : P3State) :
    P3IdxSat (pass3With curated_taxonomy tf st).2 tf := by
  intro tu htu r hr hm
  exact mem_getD_some (pass3_adds_match tf tu.1 tu.2 r htu hr hm st).2

theorem rulesFold_snd_fix (rules : List (List String × String)) (tu : String × String) :
    ∀ (st : P3State),
      (∀ r ∈ rules, patMatch r.1 tu.1 = true →
        ∃ s, listGet? st.2 tu.1 = some s ∧ memB r.2 s = true) →
      (rules.foldl (p3RuleStep tu) st).2 = st.2 := by
  induction rules with
  | nil => intro st h; rfl
  | cons r rs ih =>
    intro st h
    rw [List.foldl_cons]
    have hstep : (p3RuleStep tu st r).2 = st.2 := by
      unfold p3RuleStep
      by_cases hm : patMatch r.1 tu.1 = true
      · rw [if_pos hm]
        obtain ⟨s, h1, h2⟩ := h r (List.mem_cons_self r rs) hm
        exact dictSetInsert_eq_self st.2 tu.1 r.2 s h1 h2
      · rw [if_neg hm]
    have ih' := ih (p3RuleStep tu st r)
      (fun r' hr' hm' => by rw [hstep]; exact h r' (List.mem_cons_of_mem r hr') hm')
    rw [ih', hstep]

theorem tfFold_snd_fix (tf : List (String × String)) :
    ∀ (st : P3State), P3IdxSat st.2 tf →
      (pass3With curated_taxonomy tf st).2 = st.2 := by
  unfold pass3With
  induction tf with
  | nil => intro st h; rfl
  | cons tu tus ih =>
    intro st h
    rw [List.foldl_cons]
    have hstep : (curated_taxonomy.foldl (p3RuleStep tu) st).2 = st.2 :=
      rulesFold_snd_fix curated_taxonomy tu st
        (fun r hr hm => h tu (List.mem_cons_self tu tus) r hr hm)
    have ih' := ih (curated_taxonomy.foldl (p3RuleStep tu) st)
      (by
        intro tu' htu' r hr hm
        rw [hstep]
        exact h tu' (List.mem_cons_of_mem tu htu') r hr hm)
    rw [ih', hstep]

theorem pass3_snd_idem (tf : List (String × String)) (st : P3State) :
    (pass3 tf (pass3 tf st)).2 = (pass3 tf st).2 :=
  tfFold_snd_fix tf (pass3 tf st) (p3IdxSat_after tf st)

theorem memB_append_of_memB {t : String} {s : List String} (l : List String)
    (h : memB t s = true) : memB t (s ++ l) = true :=
  (memB_iff t (s ++ l)).mpr (List.mem_append_left l ((memB_iff t s).mp h))

theorem foldl_seen_extends (docs : List Doc) (st : DiscoveryState) :
    ∃ l, (docs.foldl processDoc st).seenTitles = st.seenTitles ++ l :=
  ⟨_, (discovery_characterization docs st).2.2⟩

theorem all_titles_seen (docs : List Doc) :
    ∀ (st : DiscoveryState), ∀ d ∈ docs, ∀ t, docTitle? d = some t →
      memB t ((docs.foldl processDoc st).seenTitles) = true := by
  induction docs with
  | nil => intro st d hd; cases hd
  | cons d0 ds ih =>
    intro st d hd t ht
    rw [List.foldl_cons]
    rcases List.mem_cons.mp hd with h0 | h0
    · subst h0
      have h1 : memB t (processDoc st d).seenTitles = true := by
        cases hs : memB t st.seenTitles with
        | true =>
          obtain ⟨l, hl⟩ := foldl_seen_extends [d] st
          have : (processDoc st d).seenTitles = st.seenTitles ++ l := hl
          rw [this]
          exact memB_append_of_memB l hs
        | false =>
          obtain ⟨a, ha, hat, hstep⟩ := processDoc_accept ht hs
          rw [hstep]
          have hseen : (acceptDoc st d a).seenTitles = st.seenTitles ++ [t] := by
            rw [acceptDoc, hat]
          rw [hseen]
          exact (memB_iff t _).mpr
            (List.mem_append_right _ (List.mem_singleton.mpr rfl))
      obtain ⟨l, hl⟩ := foldl_seen_extends ds (processDoc st d)
      rw [hl]
      exact memB_append_of_memB l h1
    · exact ih (processDoc st d0) d h0 t ht

theorem foldl_fix_of_all_seen (docs : List Doc) (st : DiscoveryState)
    (h : ∀ d ∈ docs, ∀ t, docTitle? d = some t → memB t st.seenTitles = true) :
    docs.foldl processDoc st = st := by
  induction docs with
  | nil => rfl
  | cons d ds ih =>
    rw [List.foldl_cons]
    have hstep : processDoc st d = st := by
      cases ht : docTitle? d with
      | none => exact processDoc_none ht
      | some t => exact processDoc_seen ht (h d (List.mem_cons_self d ds) t ht)
    rw [hstep]
    exact ih (fun d' hd' t ht' => h d' (List.mem_cons_of_mem d hd') t ht')

theorem discovery_idem (docs : List Doc) :
    docs.foldl processDoc (discoveryRun docs) = discoveryRun docs :=
  foldl_fix_of_all_seen docs (discoveryRun docs)
    (fun d hd t ht => all_titles_seen docs initDiscovery d hd t ht)

/-! ### Pass-2 idempotence: graph saturation machinery -/

theorem listGet?_graphSetdefault_of_hasKey (g : Graph) (k c : String)
    (h : hasKeyL g c = true) :
    listGet? (graphSetdefault g k) c = listGet? g c := by
  induction g with
  | nil => simp [hasKeyL, listGet?] at h
  | cons p ps ih =>
    by_cases hp : p.1 = k
    · rw [graphSetdefault, if_pos hp]
    · rw [graphSetdefault, if_neg hp]
      by_cases hq : p.1 = c
      · rw [listGet?, if_pos hq, listGet?, if_pos hq]
      · rw [listGet?, if_neg hq, listGet?, if_neg hq]
        rw [hasKeyL, listGet?, if_neg hq] at h
        exact ih h

theorem graphSetdefault_eq_self (g : Graph) (k : String) (h : hasKeyL g k = true) :
    graphSetdefault g k = g := by
  induction g with
  | nil => simp [hasKeyL, listGet?] at h
  | cons p ps ih =>
    by_cases hp : p.1 = k
    · rw [graphSetdefault, if_pos hp]
    · rw [graphSetdefault, if_neg hp]
      rw [hasKeyL, listGet?, if_neg hp] at h
      rw [ih h]

theorem graphUpdate_eq_self (g : Graph) (k : String) (f : Node → Node)
    (h : ∀ n, listGet? g k = some n → f n = n) : graphUpdate g k f = g := by
  induction g with
  | nil => rfl
  | cons p ps ih =>
    by_cases hp : p.1 = k
    · rw [graphUpdate, if_pos hp]
      have hfp : f p.2 = p.2 := h p.2 (by rw [listGet?, if_pos hp])
      rw [hfp]
    · rw [graphUpdate, if_neg hp]
      rw [ih (fun n hn => h n (by rw [listGet?, if_neg hp]; exact hn))]

/-- Generic preservation of a graph predicate along a fold. -/
theorem foldl_preserve {α : Type} {P : Graph → Prop} (step : Graph → α → Graph)
    (ts : List α) (hstep : ∀ g t, P g → P (step g t)) :
    ∀ g, P g → P (ts.foldl step g) := by
  induction ts with
  | nil => exact fun g h => h
  | cons t ts ih => exact fun g h => ih _ (hstep g t h)

/-- Generic fixpoint of a fold whose every step is the identity. -/
theorem foldl_fix {α : Type} (step : Graph → α → Graph) (ts : List α) (g : Graph)
    (h : ∀ t ∈ ts, step g t = g) : ts.foldl step g = g := by
  induction ts with
  | nil => rfl
  | cons t ts ih =>
    rw [List.foldl_cons, h t (List.mem_cons_self t ts)]
    exact ih (fun t' ht' => h t' (List.mem_cons_of_mem t ht'))

/-- The node under `c` exists and its subcategory set contains `s`. -/
def nodeSubFact (g : Graph) (c s : String) : Prop :=
  hasKeyL g c = true ∧ ∀ n, listGet? g c = some n → s ∈ n.subcats

/-- The node under `c` exists and its member-pages set contains `t`. -/
def nodePageFact (g : Graph) (c t : String) : Prop :=
  hasKeyL g c = true ∧ ∀ n, listGet? g c = some n → t ∈ n.pages

theorem nodeSubFact_setdefault (g : Graph) (k c s : String)
    (h : nodeSubFact g c s) : nodeSubFact (graphSetdefault g k) c s :=
  ⟨hasKeyL_graphSetdefault_mono g k c h.1,
   fun n hn => h.2 n (by rwa [listGet?_graphSetdefault_of_hasKey g k c h.1] at hn)⟩

theorem nodePageFact_setdefault (g : Graph) (k c t : String)
    (h : nodePageFact g c t) : nodePageFact (graphSetdefault g k) c t :=
  ⟨hasKeyL_graphSetdefault_mono g k c h.1,
   fun n hn => h.2 n (by rwa [listGet?_graphSetdefault_of_hasKey g k c h.1] at hn)⟩

theorem nodeSubFact_update (g : Graph) (k : String) (f : Node → Node) (c s : String)
    (hf : ∀ n x, x ∈ n.subcats → x ∈ (f n).subcats)
    (h : nodeSubFact g c s) : nodeSubFact (graphUpdate g k f) c s := by
  refine ⟨by rw [hasKeyL_graphUpdate]; exact h.1, ?_⟩
  intro n hn
  by_cases hc : c = k
  · subst hc
    rw [listGet?_graphUpdate_self] at hn
    cases hv : listGet? g c with
    | none => rw [hv] at hn; cases hn
    | some n0 =>
      rw [hv] at hn
      have hfn : f n0 = n := Option.some_inj.mp hn
      rw [← hfn]
      exact hf n0 s (h.2 n0 hv)
  · rw [listGet?_graphUpdate_ne g k c f hc] at hn
    exact h.2 n hn

theorem nodePageFact_update (g : Graph) (k : String) (f : Node → Node) (c t : String)
    (hf : ∀ n x, x ∈ n.pages → x ∈ (f n).pages)
    (h : nodePageFact g c t) : nodePageFact (graphUpdate g k f) c t := by
  refine ⟨by rw [hasKeyL_graphUpdate]; exact h.1, ?_⟩
  intro n hn
  by_cases hc : c = k
  · subst hc
    rw [listGet?_graphUpdate_self] at hn
    cases hv : listGet? g c with
    | none => rw [hv] at hn; cases hn
    | some n0 =>
      rw [hv] at hn
      have hfn : f n0 = n := Option.some_inj.mp hn
      rw [← hfn]
      exact hf n0 t (h.2 n0 hv)
  · rw [listGet?_graphUpdate_ne g k c f hc] at hn
    exact h.2 n hn

theorem hasKeyL_pass2AddSubcat_mono (g : Graph) (c' t' k : String)
    (h : hasKeyL g k = true) : hasKeyL (pass2AddSubcat g c' t') k = true := by
  unfold pass2AddSubcat
  by_cases hne : normalize_category_name t' ≠ ""
  · rw [if_pos hne]
    exact hasKeyL_graphSetdefault_mono _ _ _ (by rw [hasKeyL_graphUpdate]; exact h)
  · rw [if_neg hne]
    exact h

theorem hasKeyL_pass2AddPage_mono (g : Graph) (c' t' k : String)
    (h : hasKeyL g k = true) : hasKeyL (pass2AddPage g c' t') k = true := by
  unfold pass2AddPage
  by_cases ht : t' ≠ ""
  · rw [if_pos ht, hasKeyL_graphUpdate]
    exact h
  · rw [if_neg ht]
    exact h

theorem nodeSubFact_pass2AddSubcat (g : Graph) (c' t' c s : String)
    (h : nodeSubFact g c s) : nodeSubFact (pass2AddSubcat g c' t') c s := by
  unfold pass2AddSubcat
  by_cases hne : normalize_category_name t' ≠ ""
  · rw [if_pos hne]
    exact nodeSubFact_setdefault _ _ _ _
      (nodeSubFact_update g c' _ c s
        (fun n x hx => mem_setInsert_of_mem n.subcats _ x hx) h)
  · rw [if_neg hne]
    exact h

theorem nodeSubFact_pass2AddPage (g : Graph) (c' t' c s : String)
    (h : nodeSubFact g c s) : nodeSubFact (pass2AddPage g c' t') c s := by
  unfold pass2AddPage
  by_cases ht : t' ≠ ""
  · rw [if_pos ht]
    exact nodeSubFact_update g c' _ c s (fun n x hx => hx) h
  · rw [if_neg ht]
    exact h

theorem nodePageFact_pass2AddSubcat (g : Graph) (c' t' c t : String)
    (h : nodePageFact g c t) : nodePageFact (pass2AddSubcat g c' t') c t := by
  unfold pass2AddSubcat
  by_cases hne : normalize_category_name t' ≠ ""
  · rw [if_pos hne]
    exact nodePageFact_setdefault _ _ _ _
      (nodePageFact_update g c' _ c t (fun n x hx => hx) h)
  · rw [if_neg hne]
    exact h

theorem nodePageFact_pass2AddPage (g : Graph) (c' t' c t : String)
    (h : nodePageFact g c t) : nodePageFact (pass2AddPage g c' t') c t := by
  unfold pass2AddPage
  by_cases ht : t' ≠ ""
  · rw [if_pos ht]
    exact nodePageFact_update g c' _ c t
      (fun n x hx => mem_setInsert_of_mem n.pages _ x hx) h
  · rw [if_neg ht]
    exact h

theorem pass2AddSubcat_fix (g : Graph) (c t : String)
    (h : normalize_category_name t ≠ "" →
      hasKeyL g (normalize_category_name t) = true
      ∧ ∀ n, listGet? g c = some n → normalize_category_name t ∈ n.subcats) :
    pass2AddSubcat g c t = g := by
  unfold pass2AddSubcat
  by_cases hne : normalize_category_name t ≠ ""
  · rw [if_pos hne]
    obtain ⟨hk, hsub⟩ := h hne
    have hupd : graphUpdate g c
        (fun n => { n with subcats := setInsert n.subcats (normalize_category_name t) }) = g := by
      apply graphUpdate_eq_self
      intro n hn
      have hins : setInsert n.subcats (normalize_category_name t) = n.subcats :=
        setInsert_eq_of_memB ((memB_iff _ _).mpr (hsub n hn))
      rw [hins]
    rw [hupd]
    exact graphSetdefault_eq_self g _ hk
  · rw [if_neg hne]

theorem pass2AddPage_fix (g : Graph) (c t : String)
    (h : t ≠ "" → ∀ n, listGet? g c = some n → t ∈ n.pages) :
    pass2AddPage g c t = g := by
  unfold pass2AddPage
  by_cases ht : t ≠ ""
  · rw [if_pos ht]
    apply graphUpdate_eq_self
    intro n hn
    have hins : setInsert n.pages t = n.pages :=
      setInsert_eq_of_memB ((memB_iff _ _).mpr (h ht n hn))
    rw [hins]
  · rw [if_neg ht]

/-- Everything one processed category document contributes is already in
the graph.  Vacuous for documents pass 2 skips. -/
def DocSat (g : Graph) (d : Doc) : Prop :=
  ∀ raw, d.isError = false → d.isCatPage = true → d.heading = some raw →
    hasKeyL g (normalize_category_name raw) = true
    ∧ (∀ t ∈ d.subcatTitles.filter (fun x => strStarts x "Category:"),
        normalize_category_name t ≠ "" →
          hasKeyL g (normalize_category_name t) = true
          ∧ ∀ n, listGet? g (normalize_category_name raw) = some n →
              normalize_category_name t ∈ n.subcats)
    ∧ (∀ t ∈ d.pageTitles, t ≠ "" →
        ∀ n, listGet? g (normalize_category_name raw) = some n → t ∈ n.pages)

theorem processCatDoc_eq_body {g : Graph} {d : Doc} {raw : String}
    (herr : d.isError = false) (hcat : d.isCatPage = true) (hh : d.heading = some raw) :
    processCatDoc g d = processCatBody g d raw := by
  simp [processCatDoc, herr, hcat, hh]

theorem processCatDoc_skip {g : Graph} {d : Doc}
    (h : ¬ (d.isError = false ∧ d.isCatPage = true)) : processCatDoc g d = g := by
  unfold processCatDoc
  cases he : d.isError with
  | true => rfl
  | false =>
    cases hc : d.isCatPage with
    | true => exact absurd ⟨he, hc⟩ h
    | false => rfl

theorem processCatDoc_fix (g : Graph) (d : Doc) (h : DocSat g d) :
    processCatDoc g d = g := by
  by_cases hok : d.isError = false ∧ d.isCatPage = true
  · cases hh : d.heading with
    | none =>
      unfold processCatDoc
      rcases hok with ⟨he, hc⟩
      rw [he, hc]
      simp [hh]
    | some raw =>
      rw [processCatDoc_eq_body hok.1 hok.2 hh]
      obtain ⟨hkey, hsubs, hpages⟩ := h raw hok.1 hok.2 hh
      unfold processCatBody
      rw [graphSetdefault_eq_self g _ hkey]
      rw [foldl_fix _ _ g (fun t ht => pass2AddSubcat_fix g _ t (fun hne => hsubs t ht hne))]
      exact foldl_fix _ _ g (fun t ht => pass2AddPage_fix g _ t (fun hne => hpages t ht hne))
  · exact processCatDoc_skip hok

theorem subcatFold_establish (c : String) (ts : List String) :
    ∀ (g : Graph), hasKeyL g c = true →
      ∀ t ∈ ts, normalize_category_name t ≠ "" →
        hasKeyL (ts.foldl (fun g t => pass2AddSubcat g c t) g)
            (normalize_category_name t) = true
        ∧ ∀ n, listGet? (ts.foldl (fun g t => pass2AddSubcat g c t) g) c = some n →
            normalize_category_name t ∈ n.subcats := by
  induction ts with
  | nil => intro g hk t ht; cases ht
  | cons t0 ts ih =>
    intro g hk t ht hne
    rw [List.foldl_cons]
    rcases List.mem_cons.mp ht with h0 | h0
    · subst h0
      have hstep : hasKeyL (pass2AddSubcat g c t) (normalize_category_name t) = true
          ∧ nodeSubFact (pass2AddSubcat g c t) c (normalize_category_name t) := by
        unfold pass2AddSubcat
        rw [if_pos hne]
        have hkupd : hasKeyL (graphUpdate g c
            (fun n => { n with subcats := setInsert n.subcats (normalize_category_name t) }))
            c = true := by
          rw [hasKeyL_graphUpdate]
          exact hk
        refine ⟨hasKeyL_graphSetdefault_self _ _,
                hasKeyL_graphSetdefault_mono _ _ _ hkupd, ?_⟩
        intro n hn
        rw [listGet?_graphSetdefault_of_hasKey _ _ _ hkupd,
            listGet?_graphUpdate_self] at hn
        cases hv : listGet? g c with
        | none => rw [hv] at hn; cases hn
        | some n0 =>
          rw [hv] at hn
          have hfn := Option.some_inj.mp hn
          rw [← hfn]
          exact mem_setInsert_self _ _
      have hpres := foldl_preserve (P := fun g' =>
          hasKeyL g' (normalize_category_name t) = true
          ∧ nodeSubFact g' c (normalize_category_name t))
        (fun g t' => pass2AddSubcat g c t') ts
        (fun g' t' hp => ⟨hasKeyL_pass2AddSubcat_mono g' c t' _ hp.1,
          nodeSubFact_pass2AddSubcat g' c t' c _ hp.2⟩)
        (pass2AddSubcat g c t) hstep
      exact ⟨hpres.1, hpres.2.2⟩
    · exact ih (pass2AddSubcat g c t0)
        (hasKeyL_pass2AddSubcat_mono g c t0 c hk) t h0 hne

theorem pagesFold_establish (c : String) (ts : List String) :
    ∀ (g : Graph), hasKeyL g c = true →
      ∀ t ∈ ts, t ≠ "" →
        ∀ n, listGet? (ts.foldl (fun g t => pass2AddPage g c t) g) c = some n →
          t ∈ n.pages := by
  induction ts with
  | nil => intro g hk t ht; cases ht
  | cons t0 ts ih =>
    intro g hk t ht hne
    rw [List.foldl_cons]
    rcases List.mem_cons.mp ht with h0 | h0
    · subst h0
      have hstep : nodePageFact (pass2AddPage g c t) c t := by
        unfold pass2AddPage
        rw [if_pos hne]
        have hkupd : hasKeyL (graphUpdate g c
            (fun n => { n with pages := setInsert n.pages t })) c = true := by
          rw [hasKeyL_graphUpdate]
          exact hk
        refine ⟨hkupd, ?_⟩
        intro n hn
        rw [listGet?_graphUpdate_self] at hn
        cases hv : listGet? g c with
        | none => rw [hv] at hn; cases hn
        | some n0 =>
          rw [hv] at hn
          have hfn := Option.some_inj.mp hn
          rw [← hfn]
          exact mem_setInsert_self _ _
      have hpres := foldl_preserve (P := fun g' => nodePageFact g' c t)
        (fun g t' => pass2AddPage g c t') ts
        (fun g' t' hp => nodePageFact_pass2AddPage g' c t' c t hp)
        (pass2AddPage g c t) hstep
      exact hpres.2
    · exact ih (pass2AddPage g c t0)
        (hasKeyL_pass2AddPage_mono g c t0 c hk) t h0 hne

theorem hasKeyL_processCatDoc_mono (g : Graph) (d' : Doc) (k : String)
    (h : hasKeyL g k = true) : hasKeyL (processCatDoc g d') k = true := by
  by_cases hok : d'.isError = false ∧ d'.isCatPage = true
  · cases hh : d'.heading with
    | none =>
      unfold processCatDoc
      rcases hok with ⟨he, hc⟩
      rw [he, hc]
      simpa [hh] using h
    | some raw =>
      rw [processCatDoc_eq_body hok.1 hok.2 hh]
      unfold processCatBody
      exact foldl_preserve (P := fun g' => hasKeyL g' k = true) _ _
        (fun g' t' hp => hasKeyL_pass2AddPage_mono g' _ t' k hp) _
        (foldl_preserve (P := fun g' => hasKeyL g' k = true) _ _
          (fun g' t' hp => hasKeyL_pass2AddSubcat_mono g' _ t' k hp) _
          (hasKeyL_graphSetdefault_mono g _ k h))
  · rw [processCatDoc_skip hok]
    exact h

theorem nodeSubFact_processCatDoc (g : Graph) (d' : Doc) (c s : String)
    (h : nodeSubFact g c s) : nodeSubFact (processCatDoc g d') c s := by
  by_cases hok : d'.isError = false ∧ d'.isCatPage = true
  · cases hh : d'.heading with
    | none =>
      unfold processCatDoc
      rcases hok with ⟨he, hc⟩
      rw [he, hc]
      simpa [hh] using h
    | some raw =>
      rw [processCatDoc_eq_body hok.1 hok.2 hh]
      unfold processCatBody
      exact foldl_preserve (P := fun g' => nodeSubFact g' c s) _ _
        (fun g' t' hp => nodeSubFact_pass2AddPage g' _ t' c s hp) _
        (foldl_preserve (P := fun g' => nodeSubFact g' c s) _ _
          (fun g' t' hp => nodeSubFact_pass2AddSubcat g' _ t' c s hp) _
          (nodeSubFact_setdefault g _ c s h))
  · rw [processCatDoc_skip hok]
    exact h

theorem nodePageFact_processCatDoc (g : Graph) (d' : Doc) (c t : String)
    (h : nodePageFact g c t) : nodePageFact (processCatDoc g d') c t := by
  by_cases hok : d'.isError = false ∧ d'.isCatPage = true
  · cases hh : d'.heading with
    | none =>
      unfold processCatDoc
      rcases hok with ⟨he, hc⟩
      rw [he, hc]
      simpa [hh] using h
    | some raw =>
      rw [processCatDoc_eq_body hok.1 hok.2 hh]
      unfold processCatBody
      exact foldl_preserve (P := fun g' => nodePageFact g' c t) _ _
        (fun g' t' hp => nodePageFact_pass2AddPage g' _ t' c t hp) _
        (foldl_preserve (P := fun g' => nodePageFact g' c t) _ _
          (fun g' t' hp => nodePageFact_pass2AddSubcat g' _ t' c t hp) _
          (nodePageFact_setdefault g _ c t h))
  · rw [processCatDoc_skip hok]
    exact h

theorem processCatDoc_establish (g : Graph) (d : Doc) :
    DocSat (processCatDoc g d) d := by
  intro raw herr hcat hh
  rw [processCatDoc_eq_body herr hcat hh]
  unfold processCatBody
  have hk1 : hasKeyL (graphSetdefault g (normalize_category_name raw))
      (normalize_category_name raw) = true := hasKeyL_graphSetdefault_self _ _
  have hk2 : hasKeyL
      ((d.subcatTitles.filter (fun x => strStarts x "Category:")).foldl
        (fun g t => pass2AddSubcat g (normalize_category_name raw) t)
        (graphSetdefault g (normalize_category_name raw)))
      (normalize_category_name raw) = true :=
    foldl_preserve (P := fun g' => hasKeyL g' (normalize_category_name raw) = true) _ _
      (fun g' t' hp => hasKeyL_pass2AddSubcat_mono g' _ t' _ hp) _ hk1
  refine ⟨?_, ?_, ?_⟩
  · exact foldl_preserve (P := fun g' => hasKeyL g' (normalize_category_name raw) = true) _ _
      (fun g' t' hp => hasKeyL_pass2AddPage_mono g' _ t' _ hp) _ hk2
  · intro t ht hne
    have hest := subcatFold_establish (normalize_category_name raw) _
      (graphSetdefault g (normalize_category_name raw)) hk1 t ht hne
    have hpres := foldl_preserve (P := fun g' =>
        hasKeyL g' (normalize_category_name t) = true
        ∧ nodeSubFact g' (normalize_category_name raw) (normalize_category_name t))
      (fun g t' => pass2AddPage g (normalize_category_name raw) t') d.pageTitles
      (fun g' t' hp => ⟨hasKeyL_pass2AddPage_mono g' _ t' _ hp.1,
        nodeSubFact_pass2AddPage g' _ t' _ _ hp.2⟩)
      _ ⟨hest.1, hk2, hest.2⟩
    exact ⟨hpres.1, hpres.2.2⟩
  · intro t ht hne
    exact pagesFold_establish (normalize_category_name raw) _ _ hk2 t ht hne

theorem DocSat_processCatDoc_mono (g : Graph) (d d' : Doc) (h : DocSat g d) :
    DocSat (processCatDoc g d') d := by
  intro raw herr hcat hh
  obtain ⟨h1, h2, h3⟩ := h raw herr hcat hh
  refine ⟨hasKeyL_processCatDoc_mono g d' _ h1, ?_, ?_⟩
  · intro t ht hne
    have hsf : nodeSubFact (processCatDoc g d') (normalize_category_name raw)
        (normalize_category_name t) :=
      nodeSubFact_processCatDoc g d' _ _ ⟨h1, (h2 t ht hne).2⟩
    exact ⟨hasKeyL_processCatDoc_mono g d' _ (h2 t ht hne).1, hsf.2⟩
  · intro t ht hne
    have hpf : nodePageFact (processCatDoc g d') (normalize_category_name raw) t :=
      nodePageFact_processCatDoc g d' _ _ ⟨h1, h3 t ht hne⟩
    exact hpf.2

theorem pass2Run_establishes (cdocs : List Doc) :
    ∀ (g : Graph), ∀ d ∈ cdocs, DocSat (pass2Run g cdocs) d := by
  induction cdocs with
  | nil => intro g d hd; cases hd
  | cons d0 ds ih =>
    intro g d hd
    rcases List.mem_cons.mp hd with h0 | h0
    · subst h0
      show DocSat (ds.foldl processCatDoc (processCatDoc g d)) d
      exact foldl_preserve (P := fun g' => DocSat g' d) processCatDoc ds
        (fun g' d'' hp => DocSat_processCatDoc_mono g' d d'' hp) _
        (processCatDoc_establish g d)
    · exact ih (processCatDoc g d0) d h0

theorem pass2Run_fix (cdocs : List Doc) (g : Graph)
    (h : ∀ d ∈ cdocs, DocSat g d) : pass2Run g cdocs = g :=
  foldl_fix processCatDoc cdocs g (fun d hd => processCatDoc_fix g d (h d hd))

theorem pass2_idem (cdocs : List Doc) (g : Graph) :
    pass2Run (pass2Run g cdocs) cdocs = pass2Run g cdocs :=
  pass2Run_fix cdocs _ (pass2Run_establishes cdocs g)

/-- Counterexample to claim C5 as stated: re-applying pass 3 to the same
article map is not idempotent on the category-to-members accumulator —
the title `"Shield"` matches the Equipment rule again and is appended a
second time. -/
theorem passes_idempotent_counterexample :
    (pass3 [("Shield", "pages/S/Shield.html")]
        (pass3 [("Shield", "pages/S/Shield.html")] ([], []))).1
      ≠ (pass3 [("Shield", "pages/S/Shield.html")] ([], [])).1 := by
  decide

/-- Claim C5 (amended): re-running the discovery loop (which hosts pass
1) is idempotent — every title is already seen, so nothing changes;
re-running pass 2 on the same documents is idempotent; and re-running
pass 3 on the same article map leaves the article-title-to-categories
index unchanged.  Pass 3 is, however, not idempotent on the
category-to-members list accumulator (see the counterexample): each
re-application appends duplicate member entries. -/
theorem passes_idempotent_amended (docs cdocs : List Doc) (g : Graph)
    (tf : List (String × String)) (st : P3State) :
    docs.foldl processDoc (discoveryRun docs) = discoveryRun docs
    ∧ pass2Run (pass2Run g cdocs) cdocs = pass2Run g cdocs
    ∧ (pass3 tf (pass3 tf st)).2 = (pass3 tf st).2 :=
  ⟨discovery_idem docs, pass2_idem cdocs g, pass3_snd_idem tf st⟩

end RequiemWiki
